import Mathlib

/-!
A shallow embedding of the Lox lexical scanner of `src/main.rs` (struct
`Scanner` and its methods), together with proofs about it.

Modelling choices, all read off the source:

* The source text is a Rust `&str`; the scanner addresses it exclusively by
  byte (`self.src.bytes().nth(i)`, byte-offset slices), so we model it as its
  byte sequence, `List Nat` (each entry < 256 for genuine inputs; none of the
  scanner's comparisons need that bound).
* `usize` cursor fields become `Nat`.  The one place the source subtracts
  (`self.curr - 1` in `scan_str`) is modelled with an explicit underflow
  check, since `usize` subtraction below zero is a Rust panic (debug) /
  wrap-into-panicking-slice (release), never a normal result.
* Rust string slicing `&self.src[a..b]` panics unless `a <= b <= len` and both
  ends are char boundaries; `strSlice` returns `none` exactly in the panic
  case, and the scanner functions propagate that `none`.
* The comment-skipping loop in `Scanner::scan`,
  `loop { match self.peek() { Some(c) if c != b'\n' => {} _ => break } }`,
  has an empty body: it never advances `self.curr`, so it either breaks on its
  very first peek (when the next byte is a newline, or the input is over) or
  runs forever.  The embedding returns the distinguished outcome `diverge` in
  the second case; `commentLoopFuel` below is the loop itself, fuel-indexed,
  and `commentLoopFuel_stops` proves the encoding right.
* `f64` literal parsing (`str::parse::<f64>()` on the consumed lexeme) is
  modelled by `parseF64`, following the grammar Rust's `FromStr for f64`
  accepts, restricted to the bytes a numeric lexeme can contain (ASCII digits
  and one dot -- the scanner consumes nothing else into such a lexeme, so
  sign/exponent/inf/nan never occur).  The parsed value is carried exactly as
  a rational instead of a rounded binary float; every concrete value the
  claims mention (1.0, 2.0, 123.0) is a small integer, represented exactly by
  both.
-/

/-- `struct ScanError` of main.rs: a line number and a message. -/
structure ScanError where
  line : Nat
  message : String
  deriving DecidableEq, Repr

/-- `enum TokenType` of main.rs.  `str` carries the payload slice (the source
text strictly between the quotes), `number` the parsed numeric value (see the
header comment on `parseF64`).  The keyword variants exist in the source but
are never produced by any code path. -/
inductive TokenType where
  | lparen | rparen | lbrace | rbrace | comma | dot | minus | plus | semicolon | slash | star
  | bang | bangEqual | equal | equalEqual | greater | greaterEqual | less | lessEqual
  | ident
  | str (payload : List Nat)
  | number (value : ℚ)
  | kAnd | kClass | kElse | kFalse | kFun | kFor | kIf | kNil | kOr | kPrint
  | kReturn | kSuper | kThis | kTrue | kVar | kWhile
  | eof
  deriving DecidableEq, Repr

/-- `struct Token` of main.rs: kind, lexeme (a byte slice of the source) and
the line it was created on. -/
structure Token where
  typ : TokenType
  lexeme : List Nat
  line : Nat
  deriving DecidableEq, Repr

/-- The mutable state of `struct Scanner` (the borrowed `src` is passed
separately to every function, as in the source it is an immutable field). -/
structure Scanner where
  start : Nat
  curr : Nat
  line : Nat
  errors : List ScanError
  deriving DecidableEq, Repr

/-- `self.src.bytes().nth(i)`: the byte at offset `i`, if any. -/
def byteAt (src : List Nat) (i : Nat) : Option Nat := src[i]?

/-- `u8::is_ascii_digit`. -/
def digitB (b : Nat) : Bool := 48 ≤ b && b ≤ 57

/-- A UTF-8 continuation byte (`0x80..0xBF`). -/
def contB (b : Nat) : Bool := 128 ≤ b && b < 192

/-- `str::is_char_boundary(i)`: true at the ends of the buffer and wherever
the byte at `i` is not a continuation byte; false past the end. -/
def isCharBoundary (src : List Nat) (i : Nat) : Bool :=
  i == 0 || i == src.length ||
    (match byteAt src i with
     | some b => !contB b
     | none => false)

/-- Rust byte-range string slicing `&src[a..b]`: `some` of the byte range when
the bounds are ordered, in range and on char boundaries, `none` exactly when
Rust would panic. -/
def strSlice (src : List Nat) (a b : Nat) : Option (List Nat) :=
  if a ≤ b ∧ b ≤ src.length ∧ isCharBoundary src a ∧ isCharBoundary src b
  then some ((src.take b).drop a)
  else none

/-- Decimal value of a run of ASCII digit bytes. -/
def digitsVal (ds : List Nat) : Nat := ds.foldl (fun acc d => acc * 10 + (d - 48)) 0

/-- Model of `str::parse::<f64>()` on the strings a numeric lexeme of this
scanner can be (ASCII digits and dots; the scanner consumes no sign, exponent,
`inf` or `nan` into a numeric lexeme).  Rust's grammar accepts
`Digits '.' Digits? | '.' Digits | Digits` and rejects everything else over
this alphabet (empty input, a lone dot, two dots, a non-digit byte).  The
value is the exact decimal value, as a rational. -/
def parseF64 (s : List Nat) : Option ℚ :=
  let ip := s.takeWhile (fun b => b != 46)
  match s.dropWhile (fun b => b != 46) with
  | [] =>
      if !ip.isEmpty && ip.all digitB then some (digitsVal ip) else none
  | _ :: fp =>
      if (!ip.isEmpty || !fp.isEmpty) && ip.all digitB && fp.all digitB
      then some ((digitsVal ip : ℚ) + (digitsVal fp : ℚ) / 10 ^ fp.length)
      else none

/-! `utf8Chunked` below is the shape every valid UTF-8 string has (it only
forgets the overlong/surrogate/range refinements, so it holds of a superset of
valid UTF-8 -- proving panic-safety over the superset is only stronger). -/

mutual

/-- `utf8Chunked src`: `src` decomposes into UTF-8-shaped chunks, each either
one ASCII byte or a lead byte (in the two-, three- or four-byte lead ranges)
followed by the right number of continuation bytes (`utf8ContN` consume `N`
continuation bytes and return to `utf8Chunked`). -/
def utf8Chunked : List Nat → Bool
  | [] => true
  | b :: rest =>
    if b < 128 then utf8Chunked rest
    else if 194 ≤ b && b ≤ 223 then utf8Cont1 rest
    else if 224 ≤ b && b ≤ 239 then utf8Cont2 rest
    else if 240 ≤ b && b ≤ 244 then utf8Cont3 rest
    else false

/-- One continuation byte, then chunks. -/
def utf8Cont1 : List Nat → Bool
  | c :: rest => contB c && utf8Chunked rest
  | [] => false

/-- Two continuation bytes, then chunks. -/
def utf8Cont2 : List Nat → Bool
  | c :: rest => contB c && utf8Cont1 rest
  | [] => false

/-- Three continuation bytes, then chunks. -/
def utf8Cont3 : List Nat → Bool
  | c :: rest => contB c && utf8Cont2 rest
  | [] => false

end

/-- UTF-8 bytes of one character. -/
def charBytes (c : Char) : List Nat :=
  let n := c.toNat
  if n < 128 then [n]
  else if n < 2048 then [192 + n / 64, 128 + n % 64]
  else if n < 65536 then [224 + n / 4096, 128 + n / 64 % 64, 128 + n % 64]
  else [240 + n / 262144, 128 + n / 4096 % 64, 128 + n / 64 % 64, 128 + n % 64]

/-- UTF-8 bytes of a string (what `prog.bytes()` iterates over). -/
def strBytes (s : String) : List Nat := (s.data.map charBytes).flatten

/-- `Scanner::new`: cursor at the beginning, line 1, no errors. -/
def mkScanner : Scanner := { start := 0, curr := 0, line := 1, errors := [] }

/-- `Scanner::make_token`: a token of the given kind whose lexeme is
`&self.src[self.start..self.curr]`, tagged with the current line.  `none` is
the slicing panic. -/
def make_token (src : List Nat) (s : Scanner) (typ : TokenType) : Option Token :=
  (strSlice src s.start s.curr).map fun lex => { typ := typ, lexeme := lex, line := s.line }

/-- `Scanner::advance_if_match`: consume the next byte iff it equals
`expected`; returns whether it did, with the updated state. -/
def advance_if_match (src : List Nat) (s : Scanner) (expected : Nat) : Bool × Scanner :=
  if byteAt src s.curr = some expected then (true, { s with curr := s.curr + 1 })
  else (false, s)

theorem byteAt_lt {src : List Nat} {i b : Nat} (h : byteAt src i = some b) :
    i < src.length := by
  unfold byteAt at h
  exact (List.getElem?_eq_some.mp h).1

/-- The digit-consuming loop of `Scanner::scan_num`:
`loop { match self.peek() { Some(c) if c.is_ascii_digit() => { self.advance(); } _ => break } }`. -/
def skip_digits (src : List Nat) (s : Scanner) : Scanner :=
  match h : byteAt src s.curr with
  | some c => if digitB c then skip_digits src { s with curr := s.curr + 1 } else s
  | none => s
  termination_by src.length - s.curr
  decreasing_by have := byteAt_lt h; simp; omega

theorem skip_digits_eq (src : List Nat) (s : Scanner) :
    skip_digits src s =
      match byteAt src s.curr with
      | some c => if digitB c then skip_digits src { s with curr := s.curr + 1 } else s
      | none => s := by
  rw [skip_digits]
  split <;> rename_i heq <;> rw [heq]

/-- `Scanner::scan_str`, entered after the opening quote was consumed: advance
until a closing quote or end of input.  `some (none, s)` is the unterminated
case (error recorded, no token), `some (some t, s)` the token case, and the
outer `none` a panic (an out-of-bounds / non-boundary slice, or `self.curr - 1`
underflowing). -/
def scan_str (src : List Nat) (s : Scanner) : Option (Option Token × Scanner) :=
  match h : byteAt src s.curr with
  | none =>
      some (none, { s with
        errors := s.errors ++ [{ line := s.line, message := "Unterminated string." }] })
  | some b =>
      -- in each arm the state after `self.advance()` is written inline:
      -- `curr` has become `s.curr + 1`
      if b = 10 then scan_str src { s with curr := s.curr + 1, line := s.line + 1 }
      else if b = 34 then
        if s.curr + 1 = 0 then none
        else
          match strSlice src (s.start + 1) (s.curr + 1 - 1) with
          | none => none
          | some payload =>
              (make_token src { s with curr := s.curr + 1 } (.str payload)).map
                fun t => (some t, { s with curr := s.curr + 1 })
      else scan_str src { s with curr := s.curr + 1 }
  termination_by src.length - s.curr
  decreasing_by all_goals (have hlt := byteAt_lt h; simp; omega)

theorem scan_str_eq (src : List Nat) (s : Scanner) :
    scan_str src s =
      match byteAt src s.curr with
      | none =>
          some (none, { s with
            errors := s.errors ++ [{ line := s.line, message := "Unterminated string." }] })
      | some b =>
          if b = 10 then scan_str src { s with curr := s.curr + 1, line := s.line + 1 }
          else if b = 34 then
            if s.curr + 1 = 0 then none
            else
              match strSlice src (s.start + 1) (s.curr + 1 - 1) with
              | none => none
              | some payload =>
                  (make_token src { s with curr := s.curr + 1 } (.str payload)).map
                    fun t => (some t, { s with curr := s.curr + 1 })
          else scan_str src { s with curr := s.curr + 1 } := by
  rw [scan_str]
  split <;> rename_i heq <;> rw [heq]

/-- `Scanner::scan_num`, entered after the first digit was consumed: a digit
run, then a dot and a second digit run but only when the byte right after the
dot is again a digit, then parse the whole lexeme.  `some (none, s)` is the
parse-failure early return (`.ok()?`: no token, no error); the outer `none` is
a slicing panic. -/
def scan_num (src : List Nat) (s : Scanner) : Option (Option Token × Scanner) :=
  let s1 := skip_digits src s
  let s2 :=
    if byteAt src s1.curr == some 46 &&
       (match byteAt src (s1.curr + 1) with | some d => digitB d | none => false)
    then skip_digits src { s1 with curr := s1.curr + 1 }
    else s1
  match strSlice src s2.start s2.curr with
  | none => none
  | some lex =>
      match parseF64 lex with
      | none => some (none, s2)
      | some v => (make_token src s2 (.number v)).map fun t => (some t, s2)

/-- The comment-skipping loop of `Scanner::scan`, exactly as written, indexed
by fuel: `loop { match self.peek() { Some(c) if c != b'\n' => {} _ => break } }`.
The body is empty, so the state never changes between iterations; `none` means
the fuel ran out before the loop broke. -/
def commentLoopFuel (src : List Nat) (curr : Nat) : Nat → Option Unit
  | 0 => none
  | fuel + 1 =>
      match byteAt src curr with
      | some c => if c ≠ 10 then commentLoopFuel src curr fuel else some ()
      | none => some ()

/-- The break condition of that loop: the peeked byte is a newline, or there
is none. -/
def comment_stops (src : List Nat) (curr : Nat) : Bool :=
  match byteAt src curr with
  | some c => c == 10
  | none => true

/-- When the first peeked byte exists and is not a newline, the comment loop
runs out of any amount of fuel: it never terminates. -/
theorem commentLoopFuel_spins {src : List Nat} {curr c : Nat}
    (hb : byteAt src curr = some c) (hc : c ≠ 10) :
    ∀ fuel, commentLoopFuel src curr fuel = none := by
  intro fuel
  induction fuel with
  | zero => rfl
  | succ n ih => simp [commentLoopFuel, hb, hc, ih]

/-- The comment loop terminates (for some fuel) exactly when its first peek
already breaks it. -/
theorem commentLoopFuel_stops (src : List Nat) (curr : Nat) :
    (∃ fuel, (commentLoopFuel src curr fuel).isSome) ↔ comment_stops src curr = true := by
  unfold comment_stops
  cases hb : byteAt src curr with
  | none =>
      constructor
      · intro _; trivial
      · intro _; exact ⟨1, by simp [commentLoopFuel, hb]⟩
  | some c =>
      by_cases hc : c = 10
      · subst hc
        constructor
        · intro _; trivial
        · intro _; exact ⟨1, by simp [commentLoopFuel, hb]⟩
      · constructor
        · rintro ⟨fuel, hf⟩
          rw [commentLoopFuel_spins hb hc fuel] at hf
          simp at hf
        · intro hstop
          simp only [beq_iff_eq] at hstop
          exact absurd hstop hc

/-- The result of one iteration of the main scan loop: a panic, a divergence
(the comment loop spinning forever), or the tokens pushed by this iteration
together with the state to continue from. -/
inductive StepRes where
  | panic
  | diverge
  | next (t : Option Token) (s : Scanner)
  deriving DecidableEq, Repr

/-- `tokens.push(self.make_token(typ))`, with the slicing panic propagated. -/
def tokStep (src : List Nat) (s : Scanner) (typ : TokenType) : StepRes :=
  match make_token src s typ with
  | none => .panic
  | some t => .next (some t) s

/-- The `!` `=` `<` `>` arms: consume a following `=` if present
(`self.advance_if_match(b'=')`, inlined: on a match `curr` advances by one)
and emit the two-character kind, else the one-character kind. -/
def twoCharStep (src : List Nat) (s : Scanner) (oneChar twoChar : TokenType) : StepRes :=
  if byteAt src s.curr = some 61 then tokStep src { s with curr := s.curr + 1 } twoChar
  else tokStep src s oneChar

/-- `advance_if_match` is what the inlinings in `twoCharStep` and the `/` arm
of `dispatch` unfold to. -/
theorem advance_if_match_spec (src : List Nat) (s : Scanner) (expected : Nat) :
    advance_if_match src s expected =
      if byteAt src s.curr = some expected then (true, { s with curr := s.curr + 1 })
      else (false, s) := rfl

/-- The dispatch `match b { ... }` of `Scanner::scan` (main.rs 67-143): `b` is
the byte just consumed and `s` the state right after that advance.  Byte
values name their characters in the comments. -/
def dispatch (src : List Nat) (b : Nat) (s : Scanner) : StepRes :=
  if b = 40 then tokStep src s .lparen          -- (
  else if b = 41 then tokStep src s .rparen     -- )
  else if b = 123 then tokStep src s .lbrace    -- left brace
  else if b = 125 then tokStep src s .rbrace    -- right brace
  else if b = 44 then tokStep src s .comma      -- ,
  else if b = 46 then tokStep src s .dot        -- .
  else if b = 45 then tokStep src s .minus      -- -
  else if b = 43 then tokStep src s .plus       -- +
  else if b = 59 then tokStep src s .semicolon  -- ;
  else if b = 42 then tokStep src s .star       -- *
  else if b = 33 then twoCharStep src s .bang .bangEqual        -- !
  else if b = 61 then twoCharStep src s .equal .equalEqual      -- =
  else if b = 60 then twoCharStep src s .less .lessEqual        -- <
  else if b = 62 then twoCharStep src s .greater .greaterEqual  -- >
  else if b = 47 then                           -- /
    -- `self.advance_if_match(b'/')`, inlined: a second slash is consumed
    if byteAt src s.curr = some 47 then
      -- the comment loop; see `commentLoopFuel`: it breaks with the state
      -- unchanged iff its first peek is a newline or end of input, and
      -- otherwise never advances and never terminates
      if comment_stops src (s.curr + 1) then .next none { s with curr := s.curr + 1 }
      else .diverge
    else tokStep src s .slash
  else if b = 32 ∨ b = 13 ∨ b = 9 then .next none s             -- space, CR, tab
  else if b = 10 then .next none { s with line := s.line + 1 }  -- newline
  else if b = 34 then                                           -- double quote
    match scan_str src s with
    | none => .panic
    | some (t, s1) => .next t s1
  else if digitB b then
    match scan_num src s with
    | none => .panic
    | some (t, s1) => .next t s1
  else
    .next none { s with
      errors := s.errors ++ [{ line := s.line, message := "Unexpected character." }] }

/-- What a whole run of `Scanner::scan` can do: panic, run forever in the
comment loop, or return the token list with the accumulated errors. -/
inductive ScanOutcome where
  | panic
  | diverge
  | ok (tokens : List Token) (errors : List ScanError)
  deriving DecidableEq, Repr

/-! ### Cursor lemmas for the helper loops (needed for the main loop's
termination, and for the invariant claims). -/

theorem skip_digits_ge (src : List Nat) (s : Scanner) :
    s.curr ≤ (skip_digits src s).curr := by
  induction s using skip_digits.induct src with
  | case1 s c h hd ih => rw [skip_digits_eq, h]; simp only [hd, if_true]; simp at ih ⊢; omega
  | case2 s c h hd => rw [skip_digits_eq, h]; simp [hd]
  | case3 s h => rw [skip_digits_eq, h]

theorem skip_digits_le (src : List Nat) (s : Scanner) (hs : s.curr ≤ src.length) :
    (skip_digits src s).curr ≤ src.length := by
  induction s using skip_digits.induct src with
  | case1 s c h hd ih =>
      rw [skip_digits_eq, h]; simp only [hd, if_true]
      exact ih (by simp; exact byteAt_lt h)
  | case2 s c h hd => rw [skip_digits_eq, h]; simp [hd]; exact hs
  | case3 s h => rw [skip_digits_eq, h]; exact hs

theorem skip_digits_fields (src : List Nat) (s : Scanner) :
    (skip_digits src s).start = s.start ∧ (skip_digits src s).line = s.line ∧
      (skip_digits src s).errors = s.errors := by
  induction s using skip_digits.induct src with
  | case1 s c h hd ih => rw [skip_digits_eq, h]; simp only [hd, if_true]; simpa using ih
  | case2 s c h hd => rw [skip_digits_eq, h]; simp [hd]
  | case3 s h => rw [skip_digits_eq, h]; exact ⟨rfl, rfl, rfl⟩


theorem scan_str_next (src : List Nat) (s : Scanner) :
    ∀ t s', scan_str src s = some (t, s') →
      s.curr ≤ s'.curr ∧ s'.start = s.start ∧ s.line ≤ s'.line ∧
        (s.curr ≤ src.length → s'.curr ≤ src.length) := by
  induction s using scan_str.induct src with
  | case1 x hb =>
      intro t s' h
      rw [scan_str_eq, hb] at h
      simp only [Option.some.injEq, Prod.mk.injEq] at h
      rw [← h.2]
      exact ⟨le_refl _, rfl, le_refl _, fun hx => hx⟩
  | case2 x hb ih =>
      intro t s' h
      rw [scan_str_eq, hb] at h
      simp only [if_pos rfl] at h
      have h2 := ih t s' h
      dsimp only at h2
      have hlt := byteAt_lt hb
      exact ⟨by omega, h2.2.1, by omega, fun _ => h2.2.2.2 (by omega)⟩
  | case3 x hc0 hb hne =>
      intro t s' h
      rw [scan_str_eq, hb] at h
      dsimp only at h
      rw [if_neg hne, if_pos rfl, if_pos hc0] at h
      cases h
  | case4 x hc0 hsl hb hne =>
      intro t s' h
      rw [scan_str_eq, hb] at h
      dsimp only at h
      rw [if_neg hne, if_pos rfl, if_neg hc0, hsl] at h
      cases h
  | case5 x hc0 payload hsl hb hne =>
      intro t s' h
      rw [scan_str_eq, hb] at h
      dsimp only at h
      rw [if_neg hne, if_pos rfl, if_neg hc0, hsl] at h
      dsimp only at h
      cases hm : make_token src { x with curr := x.curr + 1 } (.str payload) with
      | none => rw [hm] at h; cases h
      | some tok =>
          rw [hm] at h
          simp only [Option.map_some', Option.some.injEq, Prod.mk.injEq] at h
          rw [← h.2]
          have hlt := byteAt_lt hb
          exact ⟨by simp, by simp, by simp, fun _ => by simp; omega⟩
  | case6 x b hb hb10 hb34 ih =>
      intro t s' h
      rw [scan_str_eq, hb] at h
      simp only [if_neg hb10, if_neg hb34] at h
      have h2 := ih t s' h
      dsimp only at h2
      have hlt := byteAt_lt hb
      exact ⟨by omega, h2.2.1, by omega, fun _ => h2.2.2.2 (by omega)⟩

theorem scan_num_next (src : List Nat) (s : Scanner) :
    ∀ t s', scan_num src s = some (t, s') →
      s.curr ≤ s'.curr ∧ s'.start = s.start ∧ s'.line = s.line ∧ s'.errors = s.errors ∧
        (s.curr ≤ src.length → s'.curr ≤ src.length) := by
  intro t s' h
  unfold scan_num at h
  dsimp only at h
  have hA := skip_digits_ge src s
  have hAf := skip_digits_fields src s
  have hAle := skip_digits_le src s
  -- the state after the optional fractional part
  have key : ∀ s2 : Scanner,
      (match strSlice src s2.start s2.curr with
        | none => none
        | some lex =>
            match parseF64 lex with
            | none => some (none, s2)
            | some v => (make_token src s2 (.number v)).map fun t => (some t, s2)) =
        some (t, s') → s' = s2 := by
    intro s2 hm
    cases hsl : strSlice src s2.start s2.curr with
    | none => rw [hsl] at hm; cases hm
    | some lex =>
        rw [hsl] at hm
        dsimp only at hm
        cases hp : parseF64 lex with
        | none => rw [hp] at hm; cases hm; rfl
        | some v =>
            rw [hp] at hm
            dsimp only at hm
            cases hmk : make_token src s2 (.number v) with
            | none => rw [hmk] at hm; cases hm
            | some tok => rw [hmk] at hm; cases hm; rfl
  by_cases hdot : (byteAt src (skip_digits src s).curr == some 46 &&
      (match byteAt src ((skip_digits src s).curr + 1) with
       | some d => digitB d | none => false)) = true
  · rw [if_pos hdot] at h
    have h46 : byteAt src (skip_digits src s).curr = some 46 := by
      have := (Bool.and_eq_true _ _).mp hdot
      exact beq_iff_eq.mp this.1
    have hlt46 := byteAt_lt h46
    have hB := skip_digits_ge src { skip_digits src s with curr := (skip_digits src s).curr + 1 }
    have hBf := skip_digits_fields src { skip_digits src s with curr := (skip_digits src s).curr + 1 }
    have hBle := skip_digits_le src { skip_digits src s with curr := (skip_digits src s).curr + 1 }
    have hs' := key _ h
    subst hs'
    dsimp only at hB hBf hBle
    refine ⟨by omega, ?_, ?_, ?_, fun _ => hBle (by omega)⟩
    · rw [hBf.1, hAf.1]
    · rw [hBf.2.1, hAf.2.1]
    · rw [hBf.2.2, hAf.2.2]
  · rw [if_neg hdot] at h
    have hs' := key _ h
    subst hs'
    exact ⟨hA, hAf.1, hAf.2.1, hAf.2.2, fun hc => hAle hc⟩

theorem tokStep_next {src : List Nat} {s : Scanner} {k : TokenType} {t : Option Token}
    {s' : Scanner} (h : tokStep src s k = .next t s') : s' = s := by
  unfold tokStep at h
  cases hm : make_token src s k with
  | none => rw [hm] at h; cases h
  | some tok => rw [hm] at h; cases h; rfl

theorem twoCharStep_next {src : List Nat} {s : Scanner} {k1 k2 : TokenType} {t : Option Token}
    {s' : Scanner} (h : twoCharStep src s k1 k2 = .next t s') :
    s' = s ∨ (byteAt src s.curr = some 61 ∧ s' = { s with curr := s.curr + 1 }) := by
  unfold twoCharStep at h
  by_cases hm : byteAt src s.curr = some 61
  · rw [if_pos hm] at h
    exact Or.inr ⟨hm, tokStep_next h⟩
  · rw [if_neg hm] at h
    exact Or.inl (tokStep_next h)

theorem dispatch_next {src : List Nat} {b : Nat} {s : Scanner} {t : Option Token} {s' : Scanner}
    (h : dispatch src b s = .next t s') :
    s.curr ≤ s'.curr ∧ s'.start = s.start ∧ s.line ≤ s'.line ∧
      (s.curr ≤ src.length → s'.curr ≤ src.length) := by
  unfold dispatch at h
  by_cases c1 : b = 40
  · rw [if_pos c1] at h; rw [tokStep_next h]; exact ⟨le_refl _, rfl, le_refl _, id⟩
  rw [if_neg c1] at h
  by_cases c2 : b = 41
  · rw [if_pos c2] at h; rw [tokStep_next h]; exact ⟨le_refl _, rfl, le_refl _, id⟩
  rw [if_neg c2] at h
  by_cases c3 : b = 123
  · rw [if_pos c3] at h; rw [tokStep_next h]; exact ⟨le_refl _, rfl, le_refl _, id⟩
  rw [if_neg c3] at h
  by_cases c4 : b = 125
  · rw [if_pos c4] at h; rw [tokStep_next h]; exact ⟨le_refl _, rfl, le_refl _, id⟩
  rw [if_neg c4] at h
  by_cases c5 : b = 44
  · rw [if_pos c5] at h; rw [tokStep_next h]; exact ⟨le_refl _, rfl, le_refl _, id⟩
  rw [if_neg c5] at h
  by_cases c6 : b = 46
  · rw [if_pos c6] at h; rw [tokStep_next h]; exact ⟨le_refl _, rfl, le_refl _, id⟩
  rw [if_neg c6] at h
  by_cases c7 : b = 45
  · rw [if_pos c7] at h; rw [tokStep_next h]; exact ⟨le_refl _, rfl, le_refl _, id⟩
  rw [if_neg c7] at h
  by_cases c8 : b = 43
  · rw [if_pos c8] at h; rw [tokStep_next h]; exact ⟨le_refl _, rfl, le_refl _, id⟩
  rw [if_neg c8] at h
  by_cases c9 : b = 59
  · rw [if_pos c9] at h; rw [tokStep_next h]; exact ⟨le_refl _, rfl, le_refl _, id⟩
  rw [if_neg c9] at h
  by_cases c10 : b = 42
  · rw [if_pos c10] at h; rw [tokStep_next h]; exact ⟨le_refl _, rfl, le_refl _, id⟩
  rw [if_neg c10] at h
  by_cases c11 : b = 33
  · rw [if_pos c11] at h
    rcases twoCharStep_next h with rfl | ⟨hm, rfl⟩
    · exact ⟨le_refl _, rfl, le_refl _, id⟩
    · refine ⟨by simp, by simp, by simp, fun _ => ?_⟩
      have := byteAt_lt hm; simp; omega
  rw [if_neg c11] at h
  by_cases c12 : b = 61
  · rw [if_pos c12] at h
    rcases twoCharStep_next h with rfl | ⟨hm, rfl⟩
    · exact ⟨le_refl _, rfl, le_refl _, id⟩
    · refine ⟨by simp, by simp, by simp, fun _ => ?_⟩
      have := byteAt_lt hm; simp; omega
  rw [if_neg c12] at h
  by_cases c13 : b = 60
  · rw [if_pos c13] at h
    rcases twoCharStep_next h with rfl | ⟨hm, rfl⟩
    · exact ⟨le_refl _, rfl, le_refl _, id⟩
    · refine ⟨by simp, by simp, by simp, fun _ => ?_⟩
      have := byteAt_lt hm; simp; omega
  rw [if_neg c13] at h
  by_cases c14 : b = 62
  · rw [if_pos c14] at h
    rcases twoCharStep_next h with rfl | ⟨hm, rfl⟩
    · exact ⟨le_refl _, rfl, le_refl _, id⟩
    · refine ⟨by simp, by simp, by simp, fun _ => ?_⟩
      have := byteAt_lt hm; simp; omega
  rw [if_neg c14] at h
  by_cases c15 : b = 47
  · rw [if_pos c15] at h
    by_cases cm : byteAt src s.curr = some 47
    · rw [if_pos cm] at h
      by_cases cs : comment_stops src (s.curr + 1) = true
      · rw [if_pos cs] at h
        cases h
        refine ⟨by simp, by simp, by simp, fun _ => ?_⟩
        have := byteAt_lt cm; simp; omega
      · rw [if_neg cs] at h; cases h
    · rw [if_neg cm] at h; rw [tokStep_next h]; exact ⟨le_refl _, rfl, le_refl _, id⟩
  rw [if_neg c15] at h
  by_cases c16 : b = 32 ∨ b = 13 ∨ b = 9
  · rw [if_pos c16] at h; cases h; exact ⟨le_refl _, rfl, le_refl _, id⟩
  rw [if_neg c16] at h
  by_cases c17 : b = 10
  · rw [if_pos c17] at h
    cases h
    exact ⟨by simp, by simp, by simp, fun hc => by simpa using hc⟩
  rw [if_neg c17] at h
  by_cases c18 : b = 34
  · rw [if_pos c18] at h
    revert h
    cases hss : scan_str src s with
    | none => intro h; cases h
    | some r =>
        cases r with
        | mk t1 s1 =>
            intro h
            cases h
            exact scan_str_next src s _ _ hss
  rw [if_neg c18] at h
  by_cases c19 : digitB b = true
  · rw [if_pos c19] at h
    revert h
    cases hsn : scan_num src s with
    | none => intro h; cases h
    | some r =>
        cases r with
        | mk t1 s1 =>
            intro h
            cases h
            have hn := scan_num_next src s _ _ hsn
            exact ⟨hn.1, hn.2.1, le_of_eq hn.2.2.1.symm, fun hc => hn.2.2.2.2 hc⟩
  rw [if_neg c19] at h
  cases h
  exact ⟨by simp, by simp, by simp, fun hc => by simpa using hc⟩

/-- The body of `Scanner::scan`: the `while let Some(b) = self.advance()` loop
(with `self.start = self.curr` re-established after every iteration, and the
token accumulator `tokens` threaded through), followed by the final
`tokens.push(self.make_token(TokenType::Eof))`.  In each iteration the state
passed to `dispatch` is the state right after the advance (`curr` incremented
past the consumed byte `b`). -/
def scanLoop (src : List Nat) (s : Scanner) (tokens : List Token) : ScanOutcome :=
  match h : byteAt src s.curr with
  | none =>
      match make_token src s .eof with
      | none => .panic
      | some t => .ok (tokens ++ [t]) s.errors
  | some b =>
      match h2 : dispatch src b { s with curr := s.curr + 1 } with
      | .panic => .panic
      | .diverge => .diverge
      | .next t s1 => scanLoop src { s1 with start := s1.curr } (tokens ++ t.toList)
  termination_by src.length - s.curr
  decreasing_by
    have h3 := byteAt_lt h
    have h4 := (dispatch_next h2).1
    simp at h4 ⊢
    omega

theorem scanLoop_eq (src : List Nat) (s : Scanner) (tokens : List Token) :
    scanLoop src s tokens =
      match byteAt src s.curr with
      | none =>
          match make_token src s .eof with
          | none => .panic
          | some t => .ok (tokens ++ [t]) s.errors
      | some b =>
          match dispatch src b { s with curr := s.curr + 1 } with
          | .panic => .panic
          | .diverge => .diverge
          | .next t s1 => scanLoop src { s1 with start := s1.curr } (tokens ++ t.toList) := by
  rw [scanLoop]
  split <;> rename_i heq <;> rw [heq]
  dsimp only
  split <;> rename_i heq2 <;> rw [heq2]

/-- `Scanner::scan` on a fresh `Scanner::new` scanner: what `run` calls. -/
def scan (src : List Nat) : ScanOutcome := scanLoop src mkScanner []

/-! ### The byte range a scan step consumes, and its newline count -/

/-- The bytes of `src` in offset range `[a, b)`: what a step that moved the
cursor from `a` to `b` consumed. -/
def sliceRange (src : List Nat) (a b : Nat) : List Nat := (src.take b).drop a

/-- Newlines in offset range `[a, b)`. -/
def countNl (src : List Nat) (a b : Nat) : Nat := (sliceRange src a b).count 10

theorem sliceRange_self (src : List Nat) (a : Nat) : sliceRange src a a = [] :=
  List.drop_eq_nil_of_le (by simp)

theorem sliceRange_split (src : List Nat) {a m b : Nat} (h1 : a ≤ m) (h2 : m ≤ b) :
    sliceRange src a b = sliceRange src a m ++ sliceRange src m b := by
  unfold sliceRange
  rcases le_or_lt m src.length with hm | hm
  · conv_lhs => rw [← List.take_append_drop m (src.take b)]
    rw [List.take_take, min_eq_left h2]
    rw [List.drop_append_of_le_length (by rw [List.length_take]; omega)]
  · have e1 : src.take b = src := List.take_of_length_le (by omega)
    have e2 : src.take m = src := List.take_of_length_le (by omega)
    rw [e1, e2, List.drop_eq_nil_of_le (le_of_lt hm)]
    simp

theorem sliceRange_one {src : List Nat} {a b c : Nat} (hb : byteAt src a = some c)
    (hab : a < b) : sliceRange src a b = c :: sliceRange src (a + 1) b := by
  unfold byteAt at hb
  obtain ⟨hlt, hget⟩ := List.getElem?_eq_some.mp hb
  unfold sliceRange
  have h1 : a < (src.take b).length := by rw [List.length_take]; omega
  rw [List.drop_eq_getElem_cons h1]
  congr 1
  rw [List.getElem_take]
  exact hget

theorem sliceRange_all {src : List Nat} {a b : Nat} (P : Nat → Prop)
    (h : ∀ i, a ≤ i → i < b → ∀ c, byteAt src i = some c → P c) :
    ∀ x ∈ sliceRange src a b, P x := by
  intro x hx
  unfold sliceRange at hx
  obtain ⟨j, hj, hget⟩ := List.mem_iff_getElem.mp hx
  have hj2 : j < (src.take b).length - a := by
    have := hj
    simp only [List.length_drop] at this
    exact this
  have hj3 : a + j < (src.take b).length := by omega
  rw [List.getElem_drop] at hget
  have hj4 : a + j < src.length := by
    rw [List.length_take] at hj3
    omega
  have hj5 : a + j < b := by
    rw [List.length_take] at hj3
    omega
  refine h (a + j) (by omega) hj5 x ?_
  unfold byteAt
  rw [List.getElem?_eq_getElem hj4]
  congr 1
  rw [List.getElem_take] at hget
  exact hget

theorem countNl_self (src : List Nat) (a : Nat) : countNl src a a = 0 := by
  unfold countNl
  rw [sliceRange_self]
  rfl

theorem countNl_split (src : List Nat) {a m b : Nat} (h1 : a ≤ m) (h2 : m ≤ b) :
    countNl src a b = countNl src a m + countNl src m b := by
  unfold countNl
  rw [sliceRange_split src h1 h2, List.count_append]

theorem countNl_one {src : List Nat} {a b c : Nat} (hb : byteAt src a = some c)
    (hab : a < b) :
    countNl src a b = (if c = 10 then 1 else 0) + countNl src (a + 1) b := by
  unfold countNl
  rw [sliceRange_one hb hab, List.count_cons]
  by_cases hc : c = 10 <;> simp [hc] <;> omega

theorem countNl_zero_of_all {src : List Nat} {a b : Nat}
    (h : ∀ i, a ≤ i → i < b → ∀ c, byteAt src i = some c → c ≠ 10) :
    countNl src a b = 0 := by
  unfold countNl
  rw [List.count_eq_zero]
  intro hmem
  exact sliceRange_all (fun c => c ≠ 10) h 10 hmem rfl

theorem skip_digits_mem (src : List Nat) (s : Scanner) :
    ∀ i, s.curr ≤ i → i < (skip_digits src s).curr →
      ∃ d, byteAt src i = some d ∧ digitB d = true := by
  induction s using skip_digits.induct src with
  | case1 x c h hd ih =>
      intro i hi1 hi2
      rw [skip_digits_eq, h] at hi2
      simp only [hd, if_true] at hi2
      dsimp only at ih
      rcases Nat.lt_or_ge i (x.curr + 1) with hlt | hge
      · have hx : i = x.curr := by omega
        subst hx
        exact ⟨c, h, hd⟩
      · exact ih i hge hi2
  | case2 x c h hd =>
      intro i hi1 hi2
      rw [skip_digits_eq, h] at hi2
      simp only [if_neg hd] at hi2
      omega
  | case3 x h =>
      intro i hi1 hi2
      rw [skip_digits_eq, h] at hi2
      dsimp only at hi2
      omega

theorem scan_str_line (src : List Nat) (s : Scanner) :
    ∀ t s', scan_str src s = some (t, s') →
      s'.line = s.line + countNl src s.curr s'.curr := by
  induction s using scan_str.induct src with
  | case1 x hb =>
      intro t s' h
      rw [scan_str_eq, hb] at h
      simp only [Option.some.injEq, Prod.mk.injEq] at h
      rw [← h.2]
      dsimp only
      rw [countNl_self]
      omega
  | case2 x hb ih =>
      intro t s' h
      rw [scan_str_eq, hb] at h
      simp only [if_pos rfl] at h
      have hline := ih t s' h
      have hmono := (scan_str_next src _ t s' h).1
      dsimp only at hline hmono
      rw [countNl_one hb (by omega)]
      simp
      omega
  | case3 x hc0 hb hne =>
      intro t s' h
      rw [scan_str_eq, hb] at h
      dsimp only at h
      rw [if_neg hne, if_pos rfl, if_pos hc0] at h
      cases h
  | case4 x hc0 hsl hb hne =>
      intro t s' h
      rw [scan_str_eq, hb] at h
      dsimp only at h
      rw [if_neg hne, if_pos rfl, if_neg hc0, hsl] at h
      cases h
  | case5 x hc0 payload hsl hb hne =>
      intro t s' h
      rw [scan_str_eq, hb] at h
      dsimp only at h
      rw [if_neg hne, if_pos rfl, if_neg hc0, hsl] at h
      dsimp only at h
      cases hm : make_token src { x with curr := x.curr + 1 } (.str payload) with
      | none => rw [hm] at h; cases h
      | some tok =>
          rw [hm] at h
          simp only [Option.map_some', Option.some.injEq, Prod.mk.injEq] at h
          rw [← h.2]
          dsimp only
          rw [countNl_one hb (by simp), countNl_self]
          simp
  | case6 x b hb hb10 hb34 ih =>
      intro t s' h
      rw [scan_str_eq, hb] at h
      simp only [if_neg hb10, if_neg hb34] at h
      have hline := ih t s' h
      have hmono := (scan_str_next src _ t s' h).1
      dsimp only at hline hmono
      rw [countNl_one hb (by omega)]
      simp only [if_neg hb10]
      omega

theorem scan_num_state (src : List Nat) (s : Scanner) :
    ∀ t s', scan_num src s = some (t, s') →
      s' = if (byteAt src (skip_digits src s).curr == some 46 &&
              (match byteAt src ((skip_digits src s).curr + 1) with
               | some d => digitB d | none => false)) = true
           then skip_digits src { skip_digits src s with curr := (skip_digits src s).curr + 1 }
           else skip_digits src s := by
  intro t s' h
  unfold scan_num at h
  dsimp only at h
  by_cases hdot : (byteAt src (skip_digits src s).curr == some 46 &&
      (match byteAt src ((skip_digits src s).curr + 1) with
       | some d => digitB d | none => false)) = true
  · rw [if_pos hdot] at h ⊢
    revert h
    cases hsl : strSlice src (skip_digits src { skip_digits src s with
        curr := (skip_digits src s).curr + 1 }).start (skip_digits src { skip_digits src s with
        curr := (skip_digits src s).curr + 1 }).curr with
    | none => intro h; cases h
    | some lex =>
        dsimp only
        intro h
        cases hp : parseF64 lex with
        | none => rw [hp] at h; cases h; rfl
        | some v =>
            rw [hp] at h
            dsimp only at h
            revert h
            cases hmk : make_token src (skip_digits src { skip_digits src s with
                curr := (skip_digits src s).curr + 1 }) (.number v) with
            | none => intro h; cases h
            | some tok => intro h; cases h; rfl
  · rw [if_neg hdot] at h ⊢
    revert h
    cases hsl : strSlice src (skip_digits src s).start (skip_digits src s).curr with
    | none => intro h; cases h
    | some lex =>
        dsimp only
        intro h
        cases hp : parseF64 lex with
        | none => rw [hp] at h; cases h; rfl
        | some v =>
            rw [hp] at h
            dsimp only at h
            revert h
            cases hmk : make_token src (skip_digits src s) (.number v) with
            | none => intro h; cases h
            | some tok => intro h; cases h; rfl

theorem scan_num_countNl (src : List Nat) (s : Scanner) :
    ∀ t s', scan_num src s = some (t, s') → countNl src s.curr s'.curr = 0 := by
  intro t s' h
  have hst := scan_num_state src s t s' h
  by_cases hdot : (byteAt src (skip_digits src s).curr == some 46 &&
      (match byteAt src ((skip_digits src s).curr + 1) with
       | some d => digitB d | none => false)) = true
  · rw [if_pos hdot] at hst
    subst hst
    have h46 : byteAt src (skip_digits src s).curr = some 46 := by
      have := (Bool.and_eq_true _ _).mp hdot
      exact beq_iff_eq.mp this.1
    have hA := skip_digits_ge src s
    have hB := skip_digits_ge src { skip_digits src s with curr := (skip_digits src s).curr + 1 }
    dsimp only at hB
    apply countNl_zero_of_all
    intro i hi1 hi2 c hc hc10
    rcases Nat.lt_or_ge i (skip_digits src s).curr with hlt | hge
    · obtain ⟨d, hd1, hd2⟩ := skip_digits_mem src s i hi1 hlt
      rw [hd1] at hc
      cases hc
      subst hc10
      simp [digitB] at hd2
    · rcases Nat.lt_or_ge i ((skip_digits src s).curr + 1) with hlt2 | hge2
      · have : i = (skip_digits src s).curr := by omega
        subst this
        rw [h46] at hc
        cases hc
        omega
      · obtain ⟨d, hd1, hd2⟩ := skip_digits_mem src
          { skip_digits src s with curr := (skip_digits src s).curr + 1 } i (by simpa using hge2)
          (by simpa using hi2)
        rw [hd1] at hc
        cases hc
        subst hc10
        simp [digitB] at hd2
  · rw [if_neg hdot] at hst
    subst hst
    apply countNl_zero_of_all
    intro i hi1 hi2 c hc hc10
    obtain ⟨d, hd1, hd2⟩ := skip_digits_mem src s i hi1 hi2
    rw [hd1] at hc
    cases hc
    subst hc10
    simp [digitB] at hd2

theorem tokStep_typ {src : List Nat} {s : Scanner} {k : TokenType} {t : Option Token}
    {s' : Scanner} (h : tokStep src s k = .next t s') :
    ∀ tok, t = some tok → tok.typ = k := by
  unfold tokStep at h
  cases hm : make_token src s k with
  | none => rw [hm] at h; cases h
  | some tok0 =>
      rw [hm] at h
      cases h
      intro tok htok
      cases htok
      unfold make_token at hm
      cases hsl : strSlice src s.start s.curr with
      | none => rw [hsl] at hm; cases hm
      | some lex => rw [hsl] at hm; cases hm; rfl

theorem scan_str_kind (src : List Nat) (s : Scanner) :
    ∀ tok s', scan_str src s = some (some tok, s') → ∃ p, tok.typ = .str p := by
  induction s using scan_str.induct src with
  | case1 x hb =>
      intro tok s' h
      rw [scan_str_eq, hb] at h
      simp only [Option.some.injEq, Prod.mk.injEq] at h
      cases h.1
  | case2 x hb ih =>
      intro tok s' h
      rw [scan_str_eq, hb] at h
      simp only [if_pos rfl] at h
      exact ih tok s' h
  | case3 x hc0 hb hne =>
      intro tok s' h
      rw [scan_str_eq, hb] at h
      dsimp only at h
      rw [if_neg hne, if_pos rfl, if_pos hc0] at h
      cases h
  | case4 x hc0 hsl hb hne =>
      intro tok s' h
      rw [scan_str_eq, hb] at h
      dsimp only at h
      rw [if_neg hne, if_pos rfl, if_neg hc0, hsl] at h
      cases h
  | case5 x hc0 payload hsl hb hne =>
      intro tok s' h
      rw [scan_str_eq, hb] at h
      dsimp only at h
      rw [if_neg hne, if_pos rfl, if_neg hc0, hsl] at h
      dsimp only at h
      revert h
      cases hm : make_token src { x with curr := x.curr + 1 } (.str payload) with
      | none => intro h; cases h
      | some tok0 =>
          intro h
          simp only [Option.map_some', Option.some.injEq, Prod.mk.injEq] at h
          have := h.1
          cases this
          refine ⟨payload, ?_⟩
          unfold make_token at hm
          revert hm
          cases hsl2 : strSlice src ({ x with curr := x.curr + 1 } : Scanner).start
              ({ x with curr := x.curr + 1 } : Scanner).curr with
          | none => intro hm; cases hm
          | some lex => intro hm; cases hm; rfl
  | case6 x b hb hb10 hb34 ih =>
      intro tok s' h
      rw [scan_str_eq, hb] at h
      simp only [if_neg hb10, if_neg hb34] at h
      exact ih tok s' h

theorem scan_num_kind (src : List Nat) (s : Scanner) :
    ∀ tok s', scan_num src s = some (some tok, s') → ∃ v, tok.typ = .number v := by
  intro tok s' h
  unfold scan_num at h
  dsimp only at h
  revert h
  generalize (if (byteAt src (skip_digits src s).curr == some 46 &&
      (match byteAt src ((skip_digits src s).curr + 1) with
       | some d => digitB d | none => false)) = true
    then skip_digits src { skip_digits src s with curr := (skip_digits src s).curr + 1 }
    else skip_digits src s) = s2
  cases hsl : strSlice src s2.start s2.curr with
  | none => intro h; cases h
  | some lex =>
      dsimp only
      cases hp : parseF64 lex with
      | none => intro h; cases h
      | some v =>
          dsimp only
          revert hp
          intro hp
          cases hmk : make_token src s2 (.number v) with
          | none => intro h; cases h
          | some tok0 =>
              intro h
              simp only [Option.map_some', Option.some.injEq, Prod.mk.injEq] at h
              have := h.1
              cases this
              refine ⟨v, ?_⟩
              unfold make_token at hmk
              revert hmk
              cases hsl2 : strSlice src s2.start s2.curr with
              | none => intro hmk; cases hmk
              | some lex2 => intro hmk; cases hmk; rfl

theorem countNl_single {src : List Nat} {a c : Nat} (hb : byteAt src a = some c)
    (hc : c ≠ 10) : countNl src a (a + 1) = 0 := by
  rw [countNl_one hb (by omega), countNl_self]
  simp [hc]

theorem twoCharStep_typ {src : List Nat} {s : Scanner} {k1 k2 : TokenType} {t : Option Token}
    {s' : Scanner} (h : twoCharStep src s k1 k2 = .next t s') :
    ∀ tok, t = some tok → tok.typ = k1 ∨ tok.typ = k2 := by
  unfold twoCharStep at h
  by_cases hm : byteAt src s.curr = some 61
  · rw [if_pos hm] at h
    intro tok htok
    exact Or.inr (tokStep_typ h tok htok)
  · rw [if_neg hm] at h
    intro tok htok
    exact Or.inl (tokStep_typ h tok htok)

/-- What one loop iteration of `Scanner::scan` does to the line counter (it
grows by exactly the number of newline bytes the iteration consumed) and to
the token stream (an iteration never pushes an Eof-kind token). `s0` is the
state at the top of the iteration, before the `advance` that consumed `b`. -/
theorem dispatch_step {src : List Nat} {b : Nat} {s0 : Scanner} {t : Option Token} {s' : Scanner}
    (hb : byteAt src s0.curr = some b)
    (h : dispatch src b { s0 with curr := s0.curr + 1 } = .next t s') :
    s'.line = s0.line + countNl src s0.curr s'.curr ∧
      (∀ tok, t = some tok → tok.typ ≠ .eof) := by
  unfold dispatch at h
  by_cases c1 : b = 40
  · subst c1
    rw [if_pos rfl] at h
    rw [tokStep_next h]
    constructor
    · dsimp only
      rw [countNl_single hb (by omega)]
      omega
    · intro tok htok heq
      rw [tokStep_typ h tok htok] at heq
      cases heq
  rw [if_neg c1] at h
  by_cases c2 : b = 41
  · subst c2
    rw [if_pos rfl] at h
    rw [tokStep_next h]
    constructor
    · dsimp only
      rw [countNl_single hb (by omega)]
      omega
    · intro tok htok heq
      rw [tokStep_typ h tok htok] at heq
      cases heq
  rw [if_neg c2] at h
  by_cases c3 : b = 123
  · subst c3
    rw [if_pos rfl] at h
    rw [tokStep_next h]
    constructor
    · dsimp only
      rw [countNl_single hb (by omega)]
      omega
    · intro tok htok heq
      rw [tokStep_typ h tok htok] at heq
      cases heq
  rw [if_neg c3] at h
  by_cases c4 : b = 125
  · subst c4
    rw [if_pos rfl] at h
    rw [tokStep_next h]
    constructor
    · dsimp only
      rw [countNl_single hb (by omega)]
      omega
    · intro tok htok heq
      rw [tokStep_typ h tok htok] at heq
      cases heq
  rw [if_neg c4] at h
  by_cases c5 : b = 44
  · subst c5
    rw [if_pos rfl] at h
    rw [tokStep_next h]
    constructor
    · dsimp only
      rw [countNl_single hb (by omega)]
      omega
    · intro tok htok heq
      rw [tokStep_typ h tok htok] at heq
      cases heq
  rw [if_neg c5] at h
  by_cases c6 : b = 46
  · subst c6
    rw [if_pos rfl] at h
    rw [tokStep_next h]
    constructor
    · dsimp only
      rw [countNl_single hb (by omega)]
      omega
    · intro tok htok heq
      rw [tokStep_typ h tok htok] at heq
      cases heq
  rw [if_neg c6] at h
  by_cases c7 : b = 45
  · subst c7
    rw [if_pos rfl] at h
    rw [tokStep_next h]
    constructor
    · dsimp only
      rw [countNl_single hb (by omega)]
      omega
    · intro tok htok heq
      rw [tokStep_typ h tok htok] at heq
      cases heq
  rw [if_neg c7] at h
  by_cases c8 : b = 43
  · subst c8
    rw [if_pos rfl] at h
    rw [tokStep_next h]
    constructor
    · dsimp only
      rw [countNl_single hb (by omega)]
      omega
    · intro tok htok heq
      rw [tokStep_typ h tok htok] at heq
      cases heq
  rw [if_neg c8] at h
  by_cases c9 : b = 59
  · subst c9
    rw [if_pos rfl] at h
    rw [tokStep_next h]
    constructor
    · dsimp only
      rw [countNl_single hb (by omega)]
      omega
    · intro tok htok heq
      rw [tokStep_typ h tok htok] at heq
      cases heq
  rw [if_neg c9] at h
  by_cases c10 : b = 42
  · subst c10
    rw [if_pos rfl] at h
    rw [tokStep_next h]
    constructor
    · dsimp only
      rw [countNl_single hb (by omega)]
      omega
    · intro tok htok heq
      rw [tokStep_typ h tok htok] at heq
      cases heq
  rw [if_neg c10] at h
  by_cases c11 : b = 33
  · subst c11
    rw [if_pos rfl] at h
    refine ⟨?_, ?_⟩
    · rcases twoCharStep_next h with hst | ⟨hm, hst⟩ <;> subst hst <;> dsimp only
      · rw [countNl_single hb (by omega)]
        omega
      · dsimp only at hm
        rw [countNl_split src (by omega : s0.curr ≤ s0.curr + 1)
              (by omega : s0.curr + 1 ≤ s0.curr + 1 + 1)]
        rw [countNl_single hb (by omega), countNl_single hm (by omega)]
        omega
    · intro tok htok heq
      rcases twoCharStep_typ h tok htok with hk | hk <;> rw [hk] at heq <;> cases heq
  rw [if_neg c11] at h
  by_cases c12 : b = 61
  · subst c12
    rw [if_pos rfl] at h
    refine ⟨?_, ?_⟩
    · rcases twoCharStep_next h with hst | ⟨hm, hst⟩ <;> subst hst <;> dsimp only
      · rw [countNl_single hb (by omega)]
        omega
      · dsimp only at hm
        rw [countNl_split src (by omega : s0.curr ≤ s0.curr + 1)
              (by omega : s0.curr + 1 ≤ s0.curr + 1 + 1)]
        rw [countNl_single hb (by omega), countNl_single hm (by omega)]
        omega
    · intro tok htok heq
      rcases twoCharStep_typ h tok htok with hk | hk <;> rw [hk] at heq <;> cases heq
  rw [if_neg c12] at h
  by_cases c13 : b = 60
  · subst c13
    rw [if_pos rfl] at h
    refine ⟨?_, ?_⟩
    · rcases twoCharStep_next h with hst | ⟨hm, hst⟩ <;> subst hst <;> dsimp only
      · rw [countNl_single hb (by omega)]
        omega
      · dsimp only at hm
        rw [countNl_split src (by omega : s0.curr ≤ s0.curr + 1)
              (by omega : s0.curr + 1 ≤ s0.curr + 1 + 1)]
        rw [countNl_single hb (by omega), countNl_single hm (by omega)]
        omega
    · intro tok htok heq
      rcases twoCharStep_typ h tok htok with hk | hk <;> rw [hk] at heq <;> cases heq
  rw [if_neg c13] at h
  by_cases c14 : b = 62
  · subst c14
    rw [if_pos rfl] at h
    refine ⟨?_, ?_⟩
    · rcases twoCharStep_next h with hst | ⟨hm, hst⟩ <;> subst hst <;> dsimp only
      · rw [countNl_single hb (by omega)]
        omega
      · dsimp only at hm
        rw [countNl_split src (by omega : s0.curr ≤ s0.curr + 1)
              (by omega : s0.curr + 1 ≤ s0.curr + 1 + 1)]
        rw [countNl_single hb (by omega), countNl_single hm (by omega)]
        omega
    · intro tok htok heq
      rcases twoCharStep_typ h tok htok with hk | hk <;> rw [hk] at heq <;> cases heq
  rw [if_neg c14] at h
  by_cases c15 : b = 47
  · subst c15
    rw [if_pos rfl] at h
    by_cases cm : byteAt src ({ s0 with curr := s0.curr + 1 } : Scanner).curr = some 47
    · rw [if_pos cm] at h
      dsimp only at cm
      by_cases cs : comment_stops src (({ s0 with curr := s0.curr + 1 } : Scanner).curr + 1) = true
      · rw [if_pos cs] at h
        cases h
        refine ⟨?_, by intro tok htok; cases htok⟩
        dsimp only
        rw [countNl_split src (by omega : s0.curr ≤ s0.curr + 1)
              (by omega : s0.curr + 1 ≤ s0.curr + 1 + 1)]
        rw [countNl_single hb (by omega), countNl_single cm (by omega)]
        omega
      · rw [if_neg cs] at h
        cases h
    · rw [if_neg cm] at h
      rw [tokStep_next h]
      constructor
      · dsimp only
        rw [countNl_single hb (by omega)]
        omega
      · intro tok htok heq
        rw [tokStep_typ h tok htok] at heq
        cases heq
  rw [if_neg c15] at h
  by_cases c16 : b = 32 ∨ b = 13 ∨ b = 9
  · rw [if_pos c16] at h
    cases h
    refine ⟨?_, by intro tok htok; cases htok⟩
    dsimp only
    rcases c16 with rfl | rfl | rfl <;> rw [countNl_single hb (by omega)] <;> omega
  rw [if_neg c16] at h
  by_cases c17 : b = 10
  · subst c17
    rw [if_pos rfl] at h
    cases h
    refine ⟨?_, by intro tok htok; cases htok⟩
    dsimp only
    rw [countNl_one hb (by omega), countNl_self]
    simp
  rw [if_neg c17] at h
  by_cases c18 : b = 34
  · subst c18
    rw [if_pos rfl] at h
    revert h
    cases hss : scan_str src { s0 with curr := s0.curr + 1 } with
    | none => intro h; cases h
    | some r =>
        cases r with
        | mk t1 s1 =>
            intro h
            cases h
            have hline := scan_str_line src _ _ _ hss
            have hmono := (scan_str_next src _ _ _ hss).1
            dsimp only at hline hmono
            refine ⟨?_, ?_⟩
            · rw [countNl_split src (by omega : s0.curr ≤ s0.curr + 1) hmono]
              rw [countNl_single hb (by omega)]
              omega
            · intro tok htok heq
              obtain ⟨p, hp⟩ := scan_str_kind src _ tok _ (htok ▸ hss)
              rw [hp] at heq
              cases heq
  rw [if_neg c18] at h
  by_cases c19 : digitB b = true
  · rw [if_pos c19] at h
    revert h
    cases hsn : scan_num src { s0 with curr := s0.curr + 1 } with
    | none => intro h; cases h
    | some r =>
        cases r with
        | mk t1 s1 =>
            intro h
            cases h
            have hline := (scan_num_next src _ _ _ hsn).2.2.1
            have hcount := scan_num_countNl src _ _ _ hsn
            have hmono := (scan_num_next src _ _ _ hsn).1
            dsimp only at hline hcount hmono
            refine ⟨?_, ?_⟩
            · rw [countNl_split src (by omega : s0.curr ≤ s0.curr + 1) hmono]
              rw [countNl_single hb (by intro e; subst e; simp [digitB] at c19)]
              omega
            · intro tok htok heq
              obtain ⟨v, hv⟩ := scan_num_kind src _ tok _ (htok ▸ hsn)
              rw [hv] at heq
              cases heq
  rw [if_neg c19] at h
  cases h
  refine ⟨?_, by intro tok htok; cases htok⟩
  dsimp only
  rw [countNl_single hb c17]
  omega

/-- The bytes that begin some lexeme rule of the dispatch in `Scanner::scan`:
the ten single-character punctuation bytes, the four one-or-two-character
operator heads, slash, the three skipped whitespace bytes, newline, the
double quote, and the ASCII digits.  Everything else falls into the
catch-all "Unexpected character." arm -- including every ASCII letter and
the underscore, since the source has no identifier/keyword branch. -/
def startsLexeme (b : Nat) : Bool :=
  b == 40 || b == 41 || b == 123 || b == 125 || b == 44 || b == 46 || b == 45 || b == 43 ||
  b == 59 || b == 42 || b == 33 || b == 61 || b == 60 || b == 62 || b == 47 || b == 32 ||
  b == 13 || b == 9 || b == 10 || b == 34 || digitB b

theorem dispatch_unexpected {b : Nat} (hb : startsLexeme b = false)
    (src : List Nat) (s : Scanner) :
    dispatch src b s = .next none { s with
      errors := s.errors ++ [{ line := s.line, message := "Unexpected character." }] } := by
  have h40 : ¬b = 40 := fun e => by subst e; simp [startsLexeme] at hb
  have h41 : ¬b = 41 := fun e => by subst e; simp [startsLexeme] at hb
  have h123 : ¬b = 123 := fun e => by subst e; simp [startsLexeme] at hb
  have h125 : ¬b = 125 := fun e => by subst e; simp [startsLexeme] at hb
  have h44 : ¬b = 44 := fun e => by subst e; simp [startsLexeme] at hb
  have h46 : ¬b = 46 := fun e => by subst e; simp [startsLexeme] at hb
  have h45 : ¬b = 45 := fun e => by subst e; simp [startsLexeme] at hb
  have h43 : ¬b = 43 := fun e => by subst e; simp [startsLexeme] at hb
  have h59 : ¬b = 59 := fun e => by subst e; simp [startsLexeme] at hb
  have h42 : ¬b = 42 := fun e => by subst e; simp [startsLexeme] at hb
  have h33 : ¬b = 33 := fun e => by subst e; simp [startsLexeme] at hb
  have h61 : ¬b = 61 := fun e => by subst e; simp [startsLexeme] at hb
  have h60 : ¬b = 60 := fun e => by subst e; simp [startsLexeme] at hb
  have h62 : ¬b = 62 := fun e => by subst e; simp [startsLexeme] at hb
  have h47 : ¬b = 47 := fun e => by subst e; simp [startsLexeme] at hb
  have hws : ¬(b = 32 ∨ b = 13 ∨ b = 9) := by
    rintro (rfl | rfl | rfl) <;> simp [startsLexeme] at hb
  have h10 : ¬b = 10 := fun e => by subst e; simp [startsLexeme] at hb
  have h34 : ¬b = 34 := fun e => by subst e; simp [startsLexeme] at hb
  have hdig : ¬digitB b = true := by
    intro e
    simp [startsLexeme, e] at hb
  unfold dispatch
  rw [if_neg h40, if_neg h41, if_neg h123, if_neg h125, if_neg h44, if_neg h46, if_neg h45, if_neg h43, if_neg h59, if_neg h42, if_neg h33, if_neg h61, if_neg h60, if_neg h62, if_neg h47, if_neg hws, if_neg h10, if_neg h34, if_neg hdig]

/-! ### UTF-8 char boundaries (for the no-panic claim) -/

theorem byteAt_cons_succ (x : Nat) (l : List Nat) (n : Nat) :
    byteAt (x :: l) (n + 1) = byteAt l n := by
  simp [byteAt]

theorem byteAt_cons_zero (x : Nat) (l : List Nat) : byteAt (x :: l) 0 = some x := by
  simp [byteAt]

theorem isCharBoundary_cons {x : Nat} {l : List Nat} {i : Nat} (hi : 1 ≤ i) :
    isCharBoundary (x :: l) (i + 1) = isCharBoundary l i := by
  unfold isCharBoundary
  rw [byteAt_cons_succ]
  have h0 : (i + 1 == 0) = false := by simp
  have h0' : (i == 0) = false := by simp; omega
  have hlen : (i + 1 == (x :: l).length) = (i == l.length) := by
    simp [List.length_cons]
  rw [h0, h0', hlen]


theorem utf8Chunked_head {c : Nat} {rest : List Nat}
    (h : utf8Chunked (c :: rest) = true) : contB c = false := by
  by_cases h1 : c < 128
  · unfold contB
    simp only [Bool.and_eq_false_iff, decide_eq_false_iff_not, not_le]
    left
    exact h1
  · unfold utf8Chunked at h
    rw [if_neg h1] at h
    by_cases h2 : (194 ≤ c && c ≤ 223) = true
    · simp only [Bool.and_eq_true, decide_eq_true_eq] at h2
      unfold contB
      simp only [Bool.and_eq_false_iff, decide_eq_false_iff_not, not_lt]
      right
      omega
    · rw [if_neg h2] at h
      by_cases h3 : (224 ≤ c && c ≤ 239) = true
      · simp only [Bool.and_eq_true, decide_eq_true_eq] at h3
        unfold contB
        simp only [Bool.and_eq_false_iff, decide_eq_false_iff_not, not_lt]
        right
        omega
      · rw [if_neg h3] at h
        by_cases h4 : (240 ≤ c && c ≤ 244) = true
        · simp only [Bool.and_eq_true, decide_eq_true_eq] at h4
          unfold contB
          simp only [Bool.and_eq_false_iff, decide_eq_false_iff_not, not_lt]
          right
          omega
        · rw [if_neg h4] at h
          cases h

theorem contB_ge {c : Nat} (h : contB c = true) : 128 ≤ c := by
  unfold contB at h
  simp only [Bool.and_eq_true, decide_eq_true_eq] at h
  exact h.1

/-- In a chunked (in particular, valid UTF-8) byte sequence, the position
right after an ASCII byte is a char boundary. -/
theorem utf8Chunked_ascii_boundary :
    ∀ (src : List Nat), utf8Chunked src = true →
      ∀ p b, byteAt src p = some b → b < 128 → isCharBoundary src (p + 1) = true := by
  suffices H : ∀ (n : Nat) (src : List Nat), src.length ≤ n → utf8Chunked src = true →
      ∀ p b, byteAt src p = some b → b < 128 → isCharBoundary src (p + 1) = true by
    exact fun src h p b hb hlt => H src.length src le_rfl h p b hb hlt
  intro n
  induction n with
  | zero =>
      intro src hlen h p b hb hlt
      match src with
      | [] => simp [byteAt] at hb
  | succ n ih =>
      intro src hlen h p b hb hlt
      match src with
      | [] => simp [byteAt] at hb
      | head :: rest =>
        by_cases hh : head < 128
        · have hrest : utf8Chunked rest = true := by
            unfold utf8Chunked at h
            rwa [if_pos hh] at h
          match p with
          | 0 =>
              match rest with
              | [] => simp [isCharBoundary]
              | c :: rest2 =>
                  have hc := utf8Chunked_head hrest
                  simp [isCharBoundary, byteAt, hc]
          | q + 1 =>
              rw [byteAt_cons_succ] at hb
              rw [isCharBoundary_cons (by omega)]
              exact ih rest (by simp at hlen; omega) hrest q b hb hlt
        · unfold utf8Chunked at h
          rw [if_neg hh] at h
          by_cases h2 : (194 ≤ head && head ≤ 223) = true
          · rw [if_pos h2] at h
            match rest with
            | [] => unfold utf8Cont1 at h; cases h
            | c1 :: rest2 =>
                have hp : contB c1 = true ∧ utf8Chunked rest2 = true := by
                  unfold utf8Cont1 at h
                  exact (Bool.and_eq_true _ _).mp h
                match p with
                | 0 =>
                    rw [byteAt_cons_zero] at hb
                    cases hb
                    omega
                | 1 =>
                    rw [byteAt_cons_succ] at hb
                    rw [byteAt_cons_zero] at hb
                    cases hb
                    have := contB_ge hp.1
                    omega
                | q + 2 =>
                    rw [byteAt_cons_succ, byteAt_cons_succ] at hb
                    rw [isCharBoundary_cons (by omega), isCharBoundary_cons (by omega)]
                    exact ih rest2 (by simp at hlen; omega) hp.2 q b hb hlt
          · rw [if_neg h2] at h
            by_cases h3 : (224 ≤ head && head ≤ 239) = true
            · rw [if_pos h3] at h
              match rest with
              | [] => unfold utf8Cont2 at h; cases h
              | [c1] => unfold utf8Cont2 utf8Cont1 at h; simp at h
              | c1 :: c2 :: rest2 =>
                  have hp : contB c1 = true ∧ contB c2 = true ∧ utf8Chunked rest2 = true := by
                    unfold utf8Cont2 utf8Cont1 at h
                    simpa [Bool.and_eq_true, and_assoc] using h
                  match p with
                  | 0 =>
                      rw [byteAt_cons_zero] at hb
                      cases hb
                      omega
                  | 1 =>
                      rw [byteAt_cons_succ] at hb
                      rw [byteAt_cons_zero] at hb
                      cases hb
                      have := contB_ge hp.1
                      omega
                  | 2 =>
                      rw [byteAt_cons_succ, byteAt_cons_succ] at hb
                      rw [byteAt_cons_zero] at hb
                      cases hb
                      have := contB_ge hp.2.1
                      omega
                  | q + 3 =>
                      rw [byteAt_cons_succ, byteAt_cons_succ, byteAt_cons_succ] at hb
                      rw [isCharBoundary_cons (by omega), isCharBoundary_cons (by omega),
                        isCharBoundary_cons (by omega)]
                      exact ih rest2 (by simp at hlen; omega) hp.2.2 q b hb hlt
            · rw [if_neg h3] at h
              by_cases h4 : (240 ≤ head && head ≤ 244) = true
              · rw [if_pos h4] at h
                match rest with
                | [] => unfold utf8Cont3 at h; cases h
                | [c1] => unfold utf8Cont3 utf8Cont2 at h; simp at h
                | [c1, c2] => unfold utf8Cont3 utf8Cont2 utf8Cont1 at h; simp at h
                | c1 :: c2 :: c3 :: rest2 =>
                    have hp : contB c1 = true ∧ contB c2 = true ∧ contB c3 = true ∧
                        utf8Chunked rest2 = true := by
                      unfold utf8Cont3 utf8Cont2 utf8Cont1 at h
                      simpa [Bool.and_eq_true, and_assoc] using h
                    match p with
                    | 0 =>
                        rw [byteAt_cons_zero] at hb
                        cases hb
                        omega
                    | 1 =>
                        rw [byteAt_cons_succ] at hb
                        rw [byteAt_cons_zero] at hb
                        cases hb
                        have := contB_ge hp.1
                        omega
                    | 2 =>
                        rw [byteAt_cons_succ, byteAt_cons_succ] at hb
                        rw [byteAt_cons_zero] at hb
                        cases hb
                        have := contB_ge hp.2.1
                        omega
                    | 3 =>
                        rw [byteAt_cons_succ, byteAt_cons_succ, byteAt_cons_succ] at hb
                        rw [byteAt_cons_zero] at hb
                        cases hb
                        have := contB_ge hp.2.2.1
                        omega
                    | q + 4 =>
                        rw [byteAt_cons_succ, byteAt_cons_succ, byteAt_cons_succ,
                          byteAt_cons_succ] at hb
                        rw [isCharBoundary_cons (by omega), isCharBoundary_cons (by omega),
                          isCharBoundary_cons (by omega), isCharBoundary_cons (by omega)]
                        exact ih rest2 (by simp at hlen; omega) hp.2.2.2 q b hb hlt
              · rw [if_neg h4] at h
                cases h

theorem isCharBoundary_of_not_cont {src : List Nat} {p b : Nat}
    (hb : byteAt src p = some b) (hc : contB b = false) :
    isCharBoundary src p = true := by
  unfold isCharBoundary
  rw [hb]
  simp [hc]

theorem isCharBoundary_length (src : List Nat) :
    isCharBoundary src src.length = true := by
  unfold isCharBoundary
  simp

theorem strSlice_isSome {src : List Nat} {a b : Nat} (hab : a ≤ b) (hble : b ≤ src.length)
    (ha2 : isCharBoundary src a = true) (hb2 : isCharBoundary src b = true) :
    strSlice src a b = some ((src.take b).drop a) := by
  unfold strSlice
  rw [if_pos ⟨hab, hble, ha2, hb2⟩]

theorem make_token_isSome {src : List Nat} {s : Scanner} (typ : TokenType)
    (hab : s.start ≤ s.curr) (hble : s.curr ≤ src.length)
    (h1 : isCharBoundary src s.start = true) (h2 : isCharBoundary src s.curr = true) :
    make_token src s typ =
      some { typ := typ, lexeme := (src.take s.curr).drop s.start, line := s.line } := by
  unfold make_token
  rw [strSlice_isSome hab hble h1 h2]
  rfl

theorem digitB_lt {d : Nat} (h : digitB d = true) : d < 128 := by
  unfold digitB at h
  simp only [Bool.and_eq_true, decide_eq_true_eq] at h
  omega

theorem scan_str_ne_none {src : List Nat} (hch : utf8Chunked src = true) :
    ∀ s : Scanner, byteAt src s.start = some 34 → s.start + 1 ≤ s.curr →
      scan_str src s ≠ none := by
  intro s
  induction s using scan_str.induct src with
  | case1 x hb =>
      intro hq hcur h
      rw [scan_str_eq, hb] at h
      cases h
  | case2 x hb ih =>
      intro hq hcur
      rw [scan_str_eq, hb]
      simp only [if_pos rfl]
      exact ih hq (by dsimp only; omega)
  | case3 x hc0 hb hne =>
      intro hq hcur
      exact absurd hc0 (by omega)
  | case4 x hc0 hsl hb hne =>
      intro hq hcur _
      have hlt := byteAt_lt hb
      have hq34 : (34 : Nat) < 128 := by omega
      have hbound1 : isCharBoundary src (x.start + 1) = true :=
        utf8Chunked_ascii_boundary src hch x.start 34 hq hq34
      have hbound2 : isCharBoundary src x.curr = true :=
        isCharBoundary_of_not_cont hb (by unfold contB; simp)
      rw [Nat.add_sub_cancel] at hsl
      rw [strSlice_isSome (by omega) (by omega) hbound1 hbound2] at hsl
      cases hsl
  | case5 x hc0 payload hsl hb hne =>
      intro hq hcur h
      rw [scan_str_eq, hb] at h
      dsimp only at h
      rw [if_neg hne, if_pos rfl, if_neg hc0, hsl] at h
      dsimp only at h
      have hlt := byteAt_lt hb
      have hbound1 : isCharBoundary src x.start = true :=
        isCharBoundary_of_not_cont hq (by unfold contB; simp)
      have hbound2 : isCharBoundary src (x.curr + 1) = true :=
        utf8Chunked_ascii_boundary src hch x.curr 34 hb (by omega)
      rw [make_token_isSome (.str payload) (by dsimp only; omega) (by dsimp only; omega)
        (by dsimp only; exact hbound1) (by dsimp only; exact hbound2)] at h
      cases h
  | case6 x b hb hb10 hb34 ih =>
      intro hq hcur
      rw [scan_str_eq, hb]
      simp only [if_neg hb10, if_neg hb34]
      exact ih hq (by dsimp only; omega)

theorem scan_num_ne_none {src : List Nat} (hch : utf8Chunked src = true) {s : Scanner} {b0 : Nat}
    (hd0 : byteAt src s.start = some b0) (hdig : digitB b0 = true)
    (hcur : s.curr = s.start + 1) : scan_num src s ≠ none := by
  have hd0lt := byteAt_lt hd0
  have hA_ge := skip_digits_ge src s
  have hA_le := skip_digits_le src s (by omega)
  have hA_f := skip_digits_fields src s
  have hbl : isCharBoundary src s.start = true :=
    isCharBoundary_of_not_cont hd0 (by
      have := digitB_lt hdig
      unfold contB
      simp
      omega)
  have hbrA : isCharBoundary src (skip_digits src s).curr = true := by
    rcases Nat.eq_or_lt_of_le hA_ge with heq | hlt
    · rw [← heq, hcur]
      exact utf8Chunked_ascii_boundary src hch s.start b0 hd0 (digitB_lt hdig)
    · obtain ⟨d, hd1, hd2⟩ := skip_digits_mem src s ((skip_digits src s).curr - 1)
        (by omega) (by omega)
      have hb2 := utf8Chunked_ascii_boundary src hch _ d hd1 (digitB_lt hd2)
      have he : (skip_digits src s).curr - 1 + 1 = (skip_digits src s).curr := by omega
      rwa [he] at hb2
  unfold scan_num
  dsimp only
  by_cases hdot : (byteAt src (skip_digits src s).curr == some 46 &&
      (match byteAt src ((skip_digits src s).curr + 1) with
       | some d => digitB d | none => false)) = true
  · rw [if_pos hdot]
    have h46 : byteAt src (skip_digits src s).curr = some 46 := by
      have := (Bool.and_eq_true _ _).mp hdot
      exact beq_iff_eq.mp this.1
    have h46lt := byteAt_lt h46
    set s1 : Scanner := ⟨(skip_digits src s).start, (skip_digits src s).curr + 1,
      (skip_digits src s).line, (skip_digits src s).errors⟩ with hs1
    have hs1c : s1.curr = (skip_digits src s).curr + 1 := by rw [hs1]
    have hs1s : s1.start = (skip_digits src s).start := by rw [hs1]
    have hB_ge := skip_digits_ge src s1
    rw [hs1c] at hB_ge
    have hB_le := skip_digits_le src s1 (by rw [hs1c]; omega)
    have hB_f := skip_digits_fields src s1
    have hbrB : isCharBoundary src (skip_digits src s1).curr = true := by
      rcases Nat.eq_or_lt_of_le hB_ge with heq | hlt
      · rw [← heq]
        exact utf8Chunked_ascii_boundary src hch _ 46 h46 (by omega)
      · obtain ⟨d, hd1, hd2⟩ := skip_digits_mem src s1 ((skip_digits src s1).curr - 1)
          (by rw [hs1c]; omega) (by omega)
        have hb2 := utf8Chunked_ascii_boundary src hch _ d hd1 (digitB_lt hd2)
        have he : (skip_digits src s1).curr - 1 + 1 = (skip_digits src s1).curr := by omega
        rwa [he] at hb2
    have hstart : (skip_digits src s1).start = s.start := by
      rw [hB_f.1, hs1s, hA_f.1]
    rw [hstart]
    rw [strSlice_isSome (by omega) hB_le hbl hbrB]
    dsimp only
    cases hp : parseF64 ((src.take (skip_digits src s1).curr).drop s.start) with
    | none => simp
    | some v =>
        have hmk := @make_token_isSome src (skip_digits src s1)
          (.number v) (by rw [hstart]; omega) hB_le (by rw [hstart]; exact hbl) hbrB
        rw [hstart] at hmk
        dsimp only
        rw [hmk]
        simp
  · rw [if_neg hdot]
    rw [hA_f.1]
    rw [strSlice_isSome (by omega) hA_le hbl hbrA]
    dsimp only
    cases hp : parseF64 ((src.take (skip_digits src s).curr).drop s.start) with
    | none => simp
    | some v =>
        have hmk := @make_token_isSome src (skip_digits src s)
          (.number v) (by rw [hA_f.1]; omega) hA_le (by rw [hA_f.1]; exact hbl) hbrA
        rw [hA_f.1] at hmk
        dsimp only
        rw [hmk]
        simp

theorem tokStep_ne_panic {src : List Nat} {st : Scanner} (k : TokenType)
    (hab : st.start ≤ st.curr) (hble : st.curr ≤ src.length)
    (h1 : isCharBoundary src st.start = true) (h2 : isCharBoundary src st.curr = true) :
    tokStep src st k ≠ .panic := by
  unfold tokStep
  rw [make_token_isSome k hab hble h1 h2]
  intro h
  cases h

/-- With chunked (in particular valid UTF-8) input and the loop invariant
`start = curr` at the top of the iteration, no dispatch arm panics: every
slice it takes is in bounds and on char boundaries. -/
theorem dispatch_ne_panic {src : List Nat} {b : Nat} {s0 : Scanner}
    (hch : utf8Chunked src = true) (hb : byteAt src s0.curr = some b)
    (hstart : s0.start = s0.curr) :
    dispatch src b { s0 with curr := s0.curr + 1 } ≠ .panic := by
  have hlt := byteAt_lt hb
  unfold dispatch
  by_cases c1 : b = 40
  · subst c1
    rw [if_pos rfl]
    exact tokStep_ne_panic _ (by dsimp only; omega) (by dsimp only; omega)
      (by dsimp only; rw [hstart]; exact isCharBoundary_of_not_cont hb (by decide))
      (by dsimp only; exact utf8Chunked_ascii_boundary src hch _ 40 hb (by decide))
  rw [if_neg c1]
  by_cases c2 : b = 41
  · subst c2
    rw [if_pos rfl]
    exact tokStep_ne_panic _ (by dsimp only; omega) (by dsimp only; omega)
      (by dsimp only; rw [hstart]; exact isCharBoundary_of_not_cont hb (by decide))
      (by dsimp only; exact utf8Chunked_ascii_boundary src hch _ 41 hb (by decide))
  rw [if_neg c2]
  by_cases c3 : b = 123
  · subst c3
    rw [if_pos rfl]
    exact tokStep_ne_panic _ (by dsimp only; omega) (by dsimp only; omega)
      (by dsimp only; rw [hstart]; exact isCharBoundary_of_not_cont hb (by decide))
      (by dsimp only; exact utf8Chunked_ascii_boundary src hch _ 123 hb (by decide))
  rw [if_neg c3]
  by_cases c4 : b = 125
  · subst c4
    rw [if_pos rfl]
    exact tokStep_ne_panic _ (by dsimp only; omega) (by dsimp only; omega)
      (by dsimp only; rw [hstart]; exact isCharBoundary_of_not_cont hb (by decide))
      (by dsimp only; exact utf8Chunked_ascii_boundary src hch _ 125 hb (by decide))
  rw [if_neg c4]
  by_cases c5 : b = 44
  · subst c5
    rw [if_pos rfl]
    exact tokStep_ne_panic _ (by dsimp only; omega) (by dsimp only; omega)
      (by dsimp only; rw [hstart]; exact isCharBoundary_of_not_cont hb (by decide))
      (by dsimp only; exact utf8Chunked_ascii_boundary src hch _ 44 hb (by decide))
  rw [if_neg c5]
  by_cases c6 : b = 46
  · subst c6
    rw [if_pos rfl]
    exact tokStep_ne_panic _ (by dsimp only; omega) (by dsimp only; omega)
      (by dsimp only; rw [hstart]; exact isCharBoundary_of_not_cont hb (by decide))
      (by dsimp only; exact utf8Chunked_ascii_boundary src hch _ 46 hb (by decide))
  rw [if_neg c6]
  by_cases c7 : b = 45
  · subst c7
    rw [if_pos rfl]
    exact tokStep_ne_panic _ (by dsimp only; omega) (by dsimp only; omega)
      (by dsimp only; rw [hstart]; exact isCharBoundary_of_not_cont hb (by decide))
      (by dsimp only; exact utf8Chunked_ascii_boundary src hch _ 45 hb (by decide))
  rw [if_neg c7]
  by_cases c8 : b = 43
  · subst c8
    rw [if_pos rfl]
    exact tokStep_ne_panic _ (by dsimp only; omega) (by dsimp only; omega)
      (by dsimp only; rw [hstart]; exact isCharBoundary_of_not_cont hb (by decide))
      (by dsimp only; exact utf8Chunked_ascii_boundary src hch _ 43 hb (by decide))
  rw [if_neg c8]
  by_cases c9 : b = 59
  · subst c9
    rw [if_pos rfl]
    exact tokStep_ne_panic _ (by dsimp only; omega) (by dsimp only; omega)
      (by dsimp only; rw [hstart]; exact isCharBoundary_of_not_cont hb (by decide))
      (by dsimp only; exact utf8Chunked_ascii_boundary src hch _ 59 hb (by decide))
  rw [if_neg c9]
  by_cases c10 : b = 42
  · subst c10
    rw [if_pos rfl]
    exact tokStep_ne_panic _ (by dsimp only; omega) (by dsimp only; omega)
      (by dsimp only; rw [hstart]; exact isCharBoundary_of_not_cont hb (by decide))
      (by dsimp only; exact utf8Chunked_ascii_boundary src hch _ 42 hb (by decide))
  rw [if_neg c10]
  by_cases c11 : b = 33
  · subst c11
    rw [if_pos rfl]
    unfold twoCharStep
    by_cases hm : byteAt src ({ s0 with curr := s0.curr + 1 } : Scanner).curr = some 61
    · rw [if_pos hm]
      dsimp only at hm
      exact tokStep_ne_panic _ (by dsimp only; omega)
        (by dsimp only; have := byteAt_lt hm; omega)
        (by dsimp only; rw [hstart]; exact isCharBoundary_of_not_cont hb (by decide))
        (by dsimp only
            have h2 := utf8Chunked_ascii_boundary src hch _ 61 hm (by decide)
            exact h2)
    · rw [if_neg hm]
      exact tokStep_ne_panic _ (by dsimp only; omega) (by dsimp only; omega)
        (by dsimp only; rw [hstart]; exact isCharBoundary_of_not_cont hb (by decide))
        (by dsimp only; exact utf8Chunked_ascii_boundary src hch _ 33 hb (by decide))
  rw [if_neg c11]
  by_cases c12 : b = 61
  · subst c12
    rw [if_pos rfl]
    unfold twoCharStep
    by_cases hm : byteAt src ({ s0 with curr := s0.curr + 1 } : Scanner).curr = some 61
    · rw [if_pos hm]
      dsimp only at hm
      exact tokStep_ne_panic _ (by dsimp only; omega)
        (by dsimp only; have := byteAt_lt hm; omega)
        (by dsimp only; rw [hstart]; exact isCharBoundary_of_not_cont hb (by decide))
        (by dsimp only
            have h2 := utf8Chunked_ascii_boundary src hch _ 61 hm (by decide)
            exact h2)
    · rw [if_neg hm]
      exact tokStep_ne_panic _ (by dsimp only; omega) (by dsimp only; omega)
        (by dsimp only; rw [hstart]; exact isCharBoundary_of_not_cont hb (by decide))
        (by dsimp only; exact utf8Chunked_ascii_boundary src hch _ 61 hb (by decide))
  rw [if_neg c12]
  by_cases c13 : b = 60
  · subst c13
    rw [if_pos rfl]
    unfold twoCharStep
    by_cases hm : byteAt src ({ s0 with curr := s0.curr + 1 } : Scanner).curr = some 61
    · rw [if_pos hm]
      dsimp only at hm
      exact tokStep_ne_panic _ (by dsimp only; omega)
        (by dsimp only; have := byteAt_lt hm; omega)
        (by dsimp only; rw [hstart]; exact isCharBoundary_of_not_cont hb (by decide))
        (by dsimp only
            have h2 := utf8Chunked_ascii_boundary src hch _ 61 hm (by decide)
            exact h2)
    · rw [if_neg hm]
      exact tokStep_ne_panic _ (by dsimp only; omega) (by dsimp only; omega)
        (by dsimp only; rw [hstart]; exact isCharBoundary_of_not_cont hb (by decide))
        (by dsimp only; exact utf8Chunked_ascii_boundary src hch _ 60 hb (by decide))
  rw [if_neg c13]
  by_cases c14 : b = 62
  · subst c14
    rw [if_pos rfl]
    unfold twoCharStep
    by_cases hm : byteAt src ({ s0 with curr := s0.curr + 1 } : Scanner).curr = some 61
    · rw [if_pos hm]
      dsimp only at hm
      exact tokStep_ne_panic _ (by dsimp only; omega)
        (by dsimp only; have := byteAt_lt hm; omega)
        (by dsimp only; rw [hstart]; exact isCharBoundary_of_not_cont hb (by decide))
        (by dsimp only
            have h2 := utf8Chunked_ascii_boundary src hch _ 61 hm (by decide)
            exact h2)
    · rw [if_neg hm]
      exact tokStep_ne_panic _ (by dsimp only; omega) (by dsimp only; omega)
        (by dsimp only; rw [hstart]; exact isCharBoundary_of_not_cont hb (by decide))
        (by dsimp only; exact utf8Chunked_ascii_boundary src hch _ 62 hb (by decide))
  rw [if_neg c14]
  by_cases c15 : b = 47
  · subst c15
    rw [if_pos rfl]
    by_cases cm : byteAt src ({ s0 with curr := s0.curr + 1 } : Scanner).curr = some 47
    · rw [if_pos cm]
      by_cases cs : comment_stops src (({ s0 with curr := s0.curr + 1 } : Scanner).curr + 1) = true
      · rw [if_pos cs]
        intro h
        cases h
      · rw [if_neg cs]
        intro h
        cases h
    · rw [if_neg cm]
      exact tokStep_ne_panic _ (by dsimp only; omega) (by dsimp only; omega)
        (by dsimp only; rw [hstart]; exact isCharBoundary_of_not_cont hb (by decide))
        (by dsimp only; exact utf8Chunked_ascii_boundary src hch _ 47 hb (by decide))
  rw [if_neg c15]
  by_cases c16 : b = 32 ∨ b = 13 ∨ b = 9
  · rw [if_pos c16]
    intro h
    cases h
  rw [if_neg c16]
  by_cases c17 : b = 10
  · rw [if_pos c17]
    intro h
    cases h
  rw [if_neg c17]
  by_cases c18 : b = 34
  · subst c18
    rw [if_pos rfl]
    have hsne := scan_str_ne_none hch ({ s0 with curr := s0.curr + 1 } : Scanner)
      (by dsimp only; rw [hstart]; exact hb) (by dsimp only; omega)
    cases hss : scan_str src { s0 with curr := s0.curr + 1 } with
    | none => exact absurd hss hsne
    | some r =>
        cases r with
        | mk t1 s1 =>
            intro h
            cases h
  rw [if_neg c18]
  by_cases c19 : digitB b = true
  · rw [if_pos c19]
    have hsne := @scan_num_ne_none src hch ({ s0 with curr := s0.curr + 1 } : Scanner) b
      (by dsimp only; rw [hstart]; exact hb) c19 (by dsimp only; rw [hstart])
    cases hsn : scan_num src { s0 with curr := s0.curr + 1 } with
    | none => exact absurd hsn hsne
    | some r =>
        cases r with
        | mk t1 s1 =>
            intro h
            cases h
  rw [if_neg c19]
  intro h
  cases h

theorem scanLoop_ne_panic {src : List Nat} (hch : utf8Chunked src = true) :
    ∀ (s : Scanner) (tokens : List Token), s.start = s.curr → s.curr ≤ src.length →
      scanLoop src s tokens ≠ .panic := by
  intro s tokens
  induction s, tokens using scanLoop.induct src with
  | case1 s tokens hnone hmk =>
      intro hstart hle
      have hcurr : s.curr = src.length := by
        rcases Nat.lt_or_ge s.curr src.length with hx | hx
        · exfalso
          unfold byteAt at hnone
          rw [List.getElem?_eq_getElem hx] at hnone
          cases hnone
        · omega
      rw [make_token_isSome .eof (by omega) (by omega)
        (by rw [hstart, hcurr]; exact isCharBoundary_length src)
        (by rw [hcurr]; exact isCharBoundary_length src)] at hmk
      cases hmk
  | case2 s tokens hnone t hmk =>
      intro hstart hle
      rw [scanLoop_eq, hnone, hmk]
      intro h
      cases h
  | case3 s tokens b hb hdp =>
      intro hstart hle
      exact absurd hdp (dispatch_ne_panic hch hb hstart)
  | case4 s tokens b hb hdp =>
      intro hstart hle
      rw [scanLoop_eq, hb]
      dsimp only
      rw [hdp]
      intro h
      cases h
  | case5 s tokens b hb t s1 hdp ih =>
      intro hstart hle
      rw [scanLoop_eq, hb]
      dsimp only
      rw [hdp]
      dsimp only
      have hnext := dispatch_next hdp
      dsimp only at hnext
      have hlt2 := byteAt_lt hb
      have hle1 : s1.curr ≤ src.length := hnext.2.2.2 (by omega)
      exact ih rfl (by dsimp only; omega)

/-- `scan` never panics on chunked (in particular, valid UTF-8) input. -/
theorem scan_ne_panic {src : List Nat} (hch : utf8Chunked src = true) :
    scan src ≠ .panic :=
  scanLoop_ne_panic hch mkScanner [] rfl (by simp [mkScanner])

theorem digitB_ne_46 {x : Nat} (h : digitB x = true) : (x != 46) = true := by
  unfold digitB at h
  simp only [Bool.and_eq_true, decide_eq_true_eq] at h
  simp only [bne_iff_ne, ne_eq]
  omega

/-- A nonempty all-digit string parses. -/
theorem parseF64_digits {l : List Nat} (hne : l ≠ []) (hall : ∀ x ∈ l, digitB x = true) :
    ∃ v, parseF64 l = some v := by
  unfold parseF64
  have htw : l.takeWhile (fun b => b != 46) = l :=
    List.takeWhile_eq_self_iff.mpr fun x hx => digitB_ne_46 (hall x hx)
  have hdw : l.dropWhile (fun b => b != 46) = [] :=
    List.dropWhile_eq_nil_iff.mpr fun x hx => digitB_ne_46 (hall x hx)
  rw [hdw, htw]
  dsimp only
  rw [if_pos (by simp [hne, List.all_eq_true]; exact hall)]
  exact ⟨_, rfl⟩

/-- Nonempty digits, a dot, then digits: parses. -/
theorem parseF64_digits_dot {l1 l2 : List Nat} (hne : l1 ≠ [])
    (h1 : ∀ x ∈ l1, digitB x = true) (h2 : ∀ x ∈ l2, digitB x = true) :
    ∃ v, parseF64 (l1 ++ 46 :: l2) = some v := by
  have key : ∀ (m : List Nat), (∀ x ∈ m, digitB x = true) →
      (m ++ 46 :: l2).takeWhile (fun b => b != 46) = m ∧
        (m ++ 46 :: l2).dropWhile (fun b => b != 46) = 46 :: l2 := by
    intro m hm
    induction m with
    | nil => simp [List.takeWhile, List.dropWhile]
    | cons a l ih =>
        have ha := digitB_ne_46 (hm a (by simp))
        have ih2 := ih fun x hx2 => hm x (by simp [hx2])
        simp [List.takeWhile, List.dropWhile, ha, ih2.1, ih2.2]
  obtain ⟨htw, hdw⟩ := key l1 h1
  unfold parseF64
  rw [hdw, htw]
  dsimp only
  rw [if_pos ?_]
  · exact ⟨_, rfl⟩
  · simp [hne, List.all_eq_true]
    exact ⟨fun x hx => h1 x hx, fun x hx => h2 x hx⟩

theorem strSlice_some_val {src : List Nat} {a b : Nat} {lex : List Nat}
    (h : strSlice src a b = some lex) : lex = sliceRange src a b := by
  unfold strSlice at h
  split at h
  · cases h; rfl
  · cases h

/-- Under the precondition of `scan_num`'s only call site (the byte at `start`
is a digit and exactly that byte has been consumed), the numeric lexeme always
parses: whenever `scan_num` returns normally it returns a token, and it never
records an error. -/
theorem scan_num_no_silent_drop {src : List Nat} {s : Scanner} {b0 : Nat}
    (hd0 : byteAt src s.start = some b0) (hdig : digitB b0 = true)
    (hcur : s.curr = s.start + 1) :
    ∀ r, scan_num src s = some r → r.1 ≠ none ∧ r.2.errors = s.errors := by
  intro r h
  have hA_ge := skip_digits_ge src s
  have hA_f := skip_digits_fields src s
  unfold scan_num at h
  dsimp only at h
  by_cases hdot : (byteAt src (skip_digits src s).curr == some 46 &&
      (match byteAt src ((skip_digits src s).curr + 1) with
       | some d => digitB d | none => false)) = true
  · rw [if_pos hdot] at h
    have h46 : byteAt src (skip_digits src s).curr = some 46 := by
      have := (Bool.and_eq_true _ _).mp hdot
      exact beq_iff_eq.mp this.1
    set s1 : Scanner := ⟨(skip_digits src s).start, (skip_digits src s).curr + 1,
      (skip_digits src s).line, (skip_digits src s).errors⟩ with hs1
    have hs1c : s1.curr = (skip_digits src s).curr + 1 := by rw [hs1]
    have hs1s : s1.start = (skip_digits src s).start := by rw [hs1]
    have hs1e : s1.errors = (skip_digits src s).errors := by rw [hs1]
    have hB_ge := skip_digits_ge src s1
    rw [hs1c] at hB_ge
    have hB_f := skip_digits_fields src s1
    have hstart : (skip_digits src s1).start = s.start := by rw [hB_f.1, hs1s, hA_f.1]
    cases hsl : strSlice src (skip_digits src s1).start (skip_digits src s1).curr with
    | none => rw [hsl] at h; cases h
    | some lex =>
        rw [hsl] at h
        dsimp only at h
        have hlex := strSlice_some_val hsl
        rw [hstart] at hlex
        have hshape : lex = sliceRange src s.start (skip_digits src s).curr ++
            46 :: sliceRange src ((skip_digits src s).curr + 1) (skip_digits src s1).curr := by
          rw [hlex]
          rw [sliceRange_split src (show s.start ≤ (skip_digits src s).curr by omega)
            (show (skip_digits src s).curr ≤ (skip_digits src s1).curr by omega)]
          congr 1
          rw [sliceRange_one h46 (by omega)]
        have hl1ne : sliceRange src s.start (skip_digits src s).curr ≠ [] := by
          rw [sliceRange_one hd0 (by omega)]
          simp
        have hl1dig : ∀ x ∈ sliceRange src s.start (skip_digits src s).curr,
            digitB x = true := by
          rw [sliceRange_one hd0 (by omega)]
          intro x hx
          rcases List.mem_cons.mp hx with hx1 | hx2
          · rw [hx1]; exact hdig
          · refine sliceRange_all (fun c => digitB c = true) ?_ x hx2
            intro i hi1 hi2 c hc
            obtain ⟨d, hd1, hd2⟩ := skip_digits_mem src s i (by omega) hi2
            rw [hd1] at hc
            cases hc
            exact hd2
        have hl2dig : ∀ x ∈ sliceRange src ((skip_digits src s).curr + 1)
            (skip_digits src s1).curr, digitB x = true := by
          refine sliceRange_all (fun c => digitB c = true) ?_
          intro i hi1 hi2 c hc
          obtain ⟨d, hd1, hd2⟩ := skip_digits_mem src s1 i (by rw [hs1c]; omega) hi2
          rw [hd1] at hc
          cases hc
          exact hd2
        obtain ⟨v, hv⟩ := parseF64_digits_dot hl1ne hl1dig hl2dig
        rw [← hshape] at hv
        rw [hv] at h
        dsimp only at h
        revert h
        cases hmk : make_token src (skip_digits src s1) (.number v) with
        | none => intro h; cases h
        | some tok =>
            intro h
            cases h
            refine ⟨by simp, ?_⟩
            dsimp only
            rw [hB_f.2.2, hs1e, hA_f.2.2]
  · rw [if_neg hdot] at h
    cases hsl : strSlice src (skip_digits src s).start (skip_digits src s).curr with
    | none => rw [hsl] at h; cases h
    | some lex =>
        rw [hsl] at h
        dsimp only at h
        have hlex := strSlice_some_val hsl
        rw [hA_f.1] at hlex
        have hl1ne : sliceRange src s.start (skip_digits src s).curr ≠ [] := by
          rw [sliceRange_one hd0 (by omega)]
          simp
        have hl1dig : ∀ x ∈ sliceRange src s.start (skip_digits src s).curr,
            digitB x = true := by
          rw [sliceRange_one hd0 (by omega)]
          intro x hx
          rcases List.mem_cons.mp hx with hx1 | hx2
          · rw [hx1]; exact hdig
          · refine sliceRange_all (fun c => digitB c = true) ?_ x hx2
            intro i hi1 hi2 c hc
            obtain ⟨d, hd1, hd2⟩ := skip_digits_mem src s i (by omega) hi2
            rw [hd1] at hc
            cases hc
            exact hd2
        obtain ⟨v, hv⟩ := parseF64_digits hl1ne hl1dig
        rw [← hlex] at hv
        rw [hv] at h
        dsimp only at h
        revert h
        cases hmk : make_token src (skip_digits src s) (.number v) with
        | none => intro h; cases h
        | some tok =>
            intro h
            cases h
            refine ⟨by simp, ?_⟩
            dsimp only
            rw [hA_f.2.2]

/-- Structure of a completed scan: the tokens the loop produced, with the one
Eof token (of empty lexeme) appended last, and no Eof among the others. -/
theorem scanLoop_ok (src : List Nat) :
    ∀ (s : Scanner) (tokens : List Token), s.start = s.curr → s.curr ≤ src.length →
      ∀ (out : List Token) (errors : List ScanError), scanLoop src s tokens = .ok out errors →
      ∃ ts tEof, out = tokens ++ ts ++ [tEof] ∧ tEof.typ = .eof ∧ tEof.lexeme = [] ∧
        ∀ t' ∈ ts, t'.typ ≠ .eof := by
  intro s tokens
  induction s, tokens using scanLoop.induct src with
  | case1 s tokens hnone hmk =>
      intro hstart hle out errors h
      rw [scanLoop_eq, hnone, hmk] at h
      cases h
  | case2 s tokens hnone t hmk =>
      intro hstart hle out errors h
      rw [scanLoop_eq, hnone, hmk] at h
      cases h
      refine ⟨[], t, by simp, ?_, ?_, by simp⟩
      · unfold make_token at hmk
        revert hmk
        cases hsl : strSlice src s.start s.curr with
        | none => intro hmk; cases hmk
        | some lex => intro hmk; cases hmk; rfl
      · unfold make_token at hmk
        revert hmk
        cases hsl : strSlice src s.start s.curr with
        | none => intro hmk; cases hmk
        | some lex =>
            intro hmk
            cases hmk
            have hlex := strSlice_some_val hsl
            rw [hlex]
            dsimp only
            unfold sliceRange
            rw [hstart]
            exact List.drop_eq_nil_of_le (by rw [List.length_take]; omega)
  | case3 s tokens b hb hdp =>
      intro hstart hle out errors h
      rw [scanLoop_eq, hb] at h
      dsimp only at h
      rw [hdp] at h
      cases h
  | case4 s tokens b hb hdp =>
      intro hstart hle out errors h
      rw [scanLoop_eq, hb] at h
      dsimp only at h
      rw [hdp] at h
      cases h
  | case5 s tokens b hb t s1 hdp ih =>
      intro hstart hle out errors h
      rw [scanLoop_eq, hb] at h
      dsimp only at h
      rw [hdp] at h
      dsimp only at h
      have hnext := dispatch_next hdp
      dsimp only at hnext
      have hlt2 := byteAt_lt hb
      obtain ⟨ts, tEof, hout, hteof, hlex, hts⟩ :=
        ih rfl (by dsimp only; exact hnext.2.2.2 (by omega)) out errors h
      refine ⟨t.toList ++ ts, tEof, by rw [hout]; simp, hteof, hlex, ?_⟩
      intro t' ht'
      rcases List.mem_append.mp ht' with h1 | h2
      · have hstep := (dispatch_step hb hdp).2
        cases t with
        | none => simp [Option.toList] at h1
        | some tok =>
            simp [Option.toList] at h1
            rw [h1]
            exact hstep tok rfl
      · exact hts t' h2

theorem byteAt_none_ge {src : List Nat} {i : Nat} (h : byteAt src i = none) :
    src.length ≤ i := by
  unfold byteAt at h
  exact List.getElem?_eq_none_iff.mp h

theorem byteAt_mem_drop {src : List Nat} {i c a : Nat} (h : byteAt src i = some c)
    (ha : a ≤ i) : c ∈ src.drop a := by
  unfold byteAt at h
  obtain ⟨hlt, hget⟩ := List.getElem?_eq_some.mp h
  rw [List.mem_iff_getElem]
  refine ⟨i - a, by rw [List.length_drop]; omega, ?_⟩
  rw [List.getElem_drop]
  have he : a + (i - a) = i := by omega
  simp only [he]
  exact hget

/-! ### The claims -/

/-- C1: the spec says every scan completes ("the overall scan always completes
and returns whatever tokens were successfully recognized alongside the error
list"), but the comment-skipping loop in `Scanner::scan` peeks without ever
advancing, so on any input where `//` is followed by a byte other than a
newline the loop never breaks: on `"//x"` the scan diverges (first conjunct),
and the loop itself, run with any amount of fuel from the state it is entered
in (cursor 2, right after the two slashes), runs out (second conjunct). -/
theorem scan_comment_loop_diverges :
    scan (strBytes "//x") = .diverge ∧
      ∀ fuel, commentLoopFuel (strBytes "//x") 2 fuel = none := by
  constructor
  · have h : strBytes "//x" = [47, 47, 120] := by decide
    rw [h]
    simp [scan, mkScanner, scanLoop_eq, dispatch, tokStep, twoCharStep, make_token, strSlice,
      isCharBoundary, contB, digitB, byteAt, comment_stops, scan_str_eq, scan_num,
      skip_digits_eq, parseF64, digitsVal]
  · intro fuel
    exact commentLoopFuel_spins (c := 120) (by decide) (by decide) fuel

/-- C2: the spec's line-comment example, input `"1 // comment\n2"`, is claimed
to yield Number(1.0), Number(2.0) and EOI; the code instead spins forever in
the comment loop as soon as it peeks the space after `//`. -/
theorem scan_line_comment_example_diverges :
    scan (strBytes "1 // comment\n2") = .diverge := by
  have h : strBytes "1 // comment\n2" = [49, 32, 47, 47, 32, 99, 111, 109, 109, 101, 110, 116, 10, 50] := by
    decide
  rw [h]
  simp [scan, mkScanner, scanLoop_eq, dispatch, tokStep, twoCharStep, make_token, strSlice,
    isCharBoundary, contB, digitB, byteAt, comment_stops, scan_str_eq, scan_num,
    skip_digits_eq, parseF64, digitsVal]

/-- C3: a byte that begins no lexeme rule -- `@` (64), `_` (95), and every
ASCII letter, since the dispatch has no identifier branch -- produces no token
and appends exactly one ScanError "Unexpected character." with the current
line, after which scanning continues with the next byte (first conjunct: the
dispatch arm is exactly an error append); a one-byte input of such a byte
still ends with the terminal EOI token (second conjunct). -/
theorem scan_unexpected_character (b : Nat)
    (hb : b = 64 ∨ b = 95 ∨ (65 ≤ b ∧ b ≤ 90) ∨ (97 ≤ b ∧ b ≤ 122) ∨ startsLexeme b = false) :
    (∀ (src : List Nat) (s : Scanner),
      dispatch src b s = .next none { s with
        errors := s.errors ++ [{ line := s.line, message := "Unexpected character." }] }) ∧
    scan [b] = .ok [{ typ := .eof, lexeme := [], line := 1 }]
      [{ line := 1, message := "Unexpected character." }] := by
  have hsl : startsLexeme b = false := by
    rcases hb with rfl | rfl | h | h | h
    · decide
    · decide
    · simp [startsLexeme, digitB]
      omega
    · simp [startsLexeme, digitB]
      omega
    · exact h
  have hd := dispatch_unexpected hsl
  refine ⟨fun src s => hd src s, ?_⟩
  simp [scan, mkScanner, scanLoop_eq, hd, make_token, strSlice, isCharBoundary, byteAt]

/-- Witness for C3 at the concrete byte `@`. -/
theorem scan_unexpected_character_witness :
    (∀ (src : List Nat) (s : Scanner),
      dispatch src 64 s = .next none { s with
        errors := s.errors ++ [{ line := s.line, message := "Unexpected character." }] }) ∧
    scan [64] = .ok [{ typ := .eof, lexeme := [], line := 1 }]
      [{ line := 1, message := "Unexpected character." }] :=
  scan_unexpected_character 64 (Or.inl rfl)

/-- C4: one iteration of the scan loop (consuming byte `b` at cursor `s0.curr`
and running its dispatch arm) preserves `start ≤ curr ≤ len(source)` (the
`0 ≤ start` part is inherent in `Nat`), keeps the line counter monotone, and
grows it by exactly the number of newline bytes the iteration consumed; the
counter starts 1-based (`Scanner::new` sets line 1, last conjunct). -/
theorem scan_cursor_line_invariant (src : List Nat) (s0 : Scanner) (b : Nat)
    (t : Option Token) (s' : Scanner)
    (hb : byteAt src s0.curr = some b)
    (hinv : s0.start ≤ s0.curr ∧ s0.curr ≤ src.length)
    (hd : dispatch src b { s0 with curr := s0.curr + 1 } = .next t s') :
    (s'.start ≤ s'.curr ∧ s'.curr ≤ src.length) ∧
      s0.line ≤ s'.line ∧ s'.line = s0.line + countNl src s0.curr s'.curr ∧
      mkScanner.line = 1 := by
  have hnext := dispatch_next hd
  dsimp only at hnext
  have hstep := (dispatch_step hb hd).1
  have hlt := byteAt_lt hb
  obtain ⟨hc1, hc2, hc3, hc4⟩ := hnext
  exact ⟨⟨by omega, hc4 (by omega)⟩, hc3, hstep, rfl⟩

/-- Witness for C4: the newline input `[10]`, whose single iteration moves the
cursor from 0 to 1 and the line from 1 to 2. -/
theorem scan_cursor_line_invariant_witness :
    (((⟨0, 1, 2, []⟩ : Scanner)).start ≤ ((⟨0, 1, 2, []⟩ : Scanner)).curr ∧
        ((⟨0, 1, 2, []⟩ : Scanner)).curr ≤ ([10] : List Nat).length) ∧
      mkScanner.line ≤ ((⟨0, 1, 2, []⟩ : Scanner)).line ∧
      ((⟨0, 1, 2, []⟩ : Scanner)).line =
        mkScanner.line + countNl [10] mkScanner.curr ((⟨0, 1, 2, []⟩ : Scanner)).curr ∧
      mkScanner.line = 1 :=
  scan_cursor_line_invariant [10] mkScanner 10 none ⟨0, 1, 2, []⟩ (by decide)
    (by decide) (by decide)

/-- C5: a completed scan's token list is non-empty, ends with the one token of
End-Of-Input kind, that token's lexeme is empty, and no other token has
End-Of-Input kind. -/
theorem scan_terminal_eof (src : List Nat) (tokens : List Token) (errors : List ScanError)
    (h : scan src = .ok tokens errors) :
    ∃ ts tEof, tokens = ts ++ [tEof] ∧ tEof.typ = .eof ∧ tEof.lexeme = [] ∧
      ∀ t' ∈ ts, t'.typ ≠ .eof := by
  obtain ⟨ts, tEof, hout, h2, h3, h4⟩ :=
    scanLoop_ok src mkScanner [] rfl (by simp [mkScanner]) tokens errors h
  exact ⟨ts, tEof, by simpa using hout, h2, h3, h4⟩

/-- Witness for C5 on the empty input. -/
theorem scan_terminal_eof_witness :
    ∃ ts tEof, ([{ typ := TokenType.eof, lexeme := [], line := 1 }] : List Token) =
        ts ++ [tEof] ∧ tEof.typ = .eof ∧ tEof.lexeme = [] ∧ ∀ t' ∈ ts, t'.typ ≠ .eof :=
  scan_terminal_eof [] [{ typ := .eof, lexeme := [], line := 1 }] []
    (by simp [scan, mkScanner, scanLoop_eq, make_token, strSlice, isCharBoundary, byteAt])

/-- C6: entered after an opening quote, when no closing quote remains in the
input `scan_str` consumes everything to end of input, emits no token, and
appends exactly one ScanError "Unterminated string." carrying the line where
scanning ended (the starting line plus every newline consumed inside the
unclosed literal). -/
theorem scan_unterminated_string (src : List Nat) (s : Scanner) :
    s.curr ≤ src.length → 34 ∉ src.drop s.curr →
    scan_str src s = some (none,
      { s with curr := src.length,
               line := s.line + countNl src s.curr src.length,
               errors := s.errors ++ [{ line := s.line + countNl src s.curr src.length,
                                        message := "Unterminated string." }] }) := by
  induction s using scan_str.induct src with
  | case1 x hb =>
      intro hc hq
      have hge := byteAt_none_ge hb
      have hcurr : x.curr = src.length := by omega
      rw [scan_str_eq, hb, ← hcurr, countNl_self]
      simp
  | case2 x hb ih =>
      intro hc hq
      have hlt := byteAt_lt hb
      rw [scan_str_eq, hb]
      simp only [if_pos rfl]
      have hq' : 34 ∉ src.drop (x.curr + 1) := by
        intro hm
        apply hq
        rw [List.drop_eq_getElem_cons hlt]
        exact List.mem_cons_of_mem _ hm
      rw [ih (by dsimp only; omega) (by dsimp only; exact hq')]
      dsimp only
      have hline : x.line + 1 + countNl src (x.curr + 1) src.length =
          x.line + countNl src x.curr src.length := by
        rw [countNl_one hb (by omega)]
        simp
        omega
      rw [hline]
      simp
  | case3 x hc0 hb hne =>
      intro hc hq
      exact absurd (byteAt_mem_drop hb (le_refl _)) hq
  | case4 x hc0 hsl hb hne =>
      intro hc hq
      exact absurd (byteAt_mem_drop hb (le_refl _)) hq
  | case5 x hc0 payload hsl hb hne =>
      intro hc hq
      exact absurd (byteAt_mem_drop hb (le_refl _)) hq
  | case6 x b hb hb10 hb34 ih =>
      intro hc hq
      have hlt := byteAt_lt hb
      rw [scan_str_eq, hb]
      simp only [if_neg hb10, if_neg hb34]
      have hq' : 34 ∉ src.drop (x.curr + 1) := by
        intro hm
        apply hq
        rw [List.drop_eq_getElem_cons hlt]
        exact List.mem_cons_of_mem _ hm
      rw [ih (by dsimp only; omega) (by dsimp only; exact hq')]
      dsimp only
      have hline : x.line + countNl src (x.curr + 1) src.length =
          x.line + countNl src x.curr src.length := by
        rw [countNl_one hb (by omega)]
        simp [hb10]
      rw [hline]

/-- Witness for C6 on the unterminated input `"abc` (bytes `[34,97,98,99]`),
from the state right after the opening quote was consumed. -/
theorem scan_unterminated_string_witness :
    scan_str [34, 97, 98, 99] ⟨0, 1, 1, []⟩ = some (none,
      (⟨0, ([34, 97, 98, 99] : List Nat).length,
        1 + countNl [34, 97, 98, 99] 1 ([34, 97, 98, 99] : List Nat).length,
        [] ++ [{ line := 1 + countNl [34, 97, 98, 99] 1 ([34, 97, 98, 99] : List Nat).length,
                 message := "Unterminated string." }]⟩ : Scanner)) :=
  scan_unterminated_string [34, 97, 98, 99] ⟨0, 1, 1, []⟩ (by decide) (by decide)

/-- C7: the five-character quoted input `"hello"` yields exactly one
String-kind token whose payload is the source slice strictly between the
quotes (`hello`) and whose lexeme is the full quoted slice including both
quote characters, followed by the EOI token. -/
theorem scan_string_roundtrip :
    scan (strBytes "\"hello\"") = .ok
      [{ typ := .str (strBytes "hello"), lexeme := strBytes "\"hello\"", line := 1 },
       { typ := .eof, lexeme := [], line := 1 }] [] := by
  have h1 : strBytes "\"hello\"" = [34, 104, 101, 108, 108, 111, 34] := by decide
  have h2 : strBytes "hello" = [104, 101, 108, 108, 111] := by decide
  rw [h1, h2]
  simp [scan, mkScanner, scanLoop_eq, dispatch, tokStep, twoCharStep, make_token, strSlice,
    isCharBoundary, contB, digitB, byteAt, comment_stops, scan_str_eq, scan_num,
    skip_digits_eq, parseF64, digitsVal]

/-- C8: the dot after a digit run is consumed into the number only when the
byte right after the dot is again an ASCII digit (first conjunct: when it is
not, `scan_num` stops at the end of the plain digit run, two-byte lookahead);
on the concrete input `123.` the scan yields Number(123.0) immediately
followed by a Dot token and then EOI (second conjunct). -/
theorem scan_number_trailing_dot (src : List Nat) (s : Scanner) (r : Option Token × Scanner)
    (hnd : match byteAt src ((skip_digits src s).curr + 1) with
           | some d => digitB d = false
           | none => True)
    (hr : scan_num src s = some r) :
    r.2.curr = (skip_digits src s).curr ∧
      scan (strBytes "123.") = .ok
        [{ typ := .number 123, lexeme := strBytes "123", line := 1 },
         { typ := .dot, lexeme := [46], line := 1 },
         { typ := .eof, lexeme := [], line := 1 }] [] := by
  constructor
  · have hr2 : scan_num src s = some (r.1, r.2) := by rw [Prod.mk.eta]; exact hr
    have hst := scan_num_state src s r.1 r.2 hr2
    have hcond : ¬ (byteAt src (skip_digits src s).curr == some 46 &&
        (match byteAt src ((skip_digits src s).curr + 1) with
         | some d => digitB d | none => false)) = true := by
      revert hnd
      cases hb2 : byteAt src ((skip_digits src s).curr + 1) with
      | none => intro _; simp
      | some d =>
          intro hnd
          dsimp only at hnd
          simp [hnd]
    rw [if_neg hcond] at hst
    rw [hst]
  · have h1 : strBytes "123." = [49, 50, 51, 46] := by decide
    have h2 : strBytes "123" = [49, 50, 51] := by decide
    rw [h1, h2]
    simp [scan, mkScanner, scanLoop_eq, dispatch, tokStep, twoCharStep, make_token, strSlice,
      isCharBoundary, contB, digitB, byteAt, comment_stops, scan_str_eq, scan_num,
      skip_digits_eq, parseF64, digitsVal]

/-- Witness for C8 on the input `123.` itself, entered at the only call site
state (first digit consumed). -/
theorem scan_number_trailing_dot_witness :
    ((some { typ := TokenType.number 123, lexeme := [49, 50, 51], line := 1 },
        (⟨0, 3, 1, []⟩ : Scanner)) : Option Token × Scanner).2.curr =
      (skip_digits [49, 50, 51, 46] ⟨0, 1, 1, []⟩).curr ∧
      scan (strBytes "123.") = .ok
        [{ typ := .number 123, lexeme := strBytes "123", line := 1 },
         { typ := .dot, lexeme := [46], line := 1 },
         { typ := .eof, lexeme := [], line := 1 }] [] :=
  scan_number_trailing_dot [49, 50, 51, 46] ⟨0, 1, 1, []⟩
    (some { typ := TokenType.number 123, lexeme := [49, 50, 51], line := 1 }, ⟨0, 3, 1, []⟩)
    (by simp [skip_digits_eq, byteAt, digitB])
    (by simp [scan_num, skip_digits_eq, byteAt, digitB, strSlice, isCharBoundary, contB,
      make_token, parseF64, digitsVal])

/-- C9 counterexample: the claim asserts some input makes the numeric parse
fail (silently).  No such input exists: from the only call site of `scan_num`
(the byte at `start` is an ASCII digit and exactly that byte has been
consumed), the consumed lexeme always matches `digit+ ('.' digit+)?`, which
the float parser accepts, so the no-token-no-error outcome `some (none, _)`
is unreachable. -/
theorem scan_num_parse_failure_unreachable :
    ¬ ∃ (src : List Nat) (s s' : Scanner) (b0 : Nat),
        byteAt src s.start = some b0 ∧ digitB b0 = true ∧ s.curr = s.start + 1 ∧
        scan_num src s = some (none, s') := by
  rintro ⟨src, s, s', b0, h1, h2, h3, h4⟩
  exact (scan_num_no_silent_drop h1 h2 h3 (none, s') h4).1 rfl

/-- C9 (amended): whenever `scan_num`, entered from its only call site,
returns without panicking, it returns a token, and it never records any
ScanError -- so the parse-failure path (which would silently emit no token
and no error) is dead code. -/
theorem scan_num_never_drops_silently (src : List Nat) (s : Scanner) (b0 : Nat)
    (r : Option Token × Scanner) (hd0 : byteAt src s.start = some b0)
    (hdig : digitB b0 = true) (hcur : s.curr = s.start + 1)
    (hr : scan_num src s = some r) :
    r.1 ≠ none ∧ r.2.errors = s.errors :=
  scan_num_no_silent_drop hd0 hdig hcur r hr

/-- Witness for the amended C9 on the one-digit input `1`. -/
theorem scan_num_never_drops_silently_witness :
    ((some { typ := TokenType.number 1, lexeme := [49], line := 1 },
        (⟨0, 1, 1, []⟩ : Scanner)) : Option Token × Scanner).1 ≠ none ∧
      ((some { typ := TokenType.number 1, lexeme := [49], line := 1 },
        (⟨0, 1, 1, []⟩ : Scanner)) : Option Token × Scanner).2.errors =
        (⟨0, 1, 1, []⟩ : Scanner).errors :=
  scan_num_never_drops_silently [49] ⟨0, 1, 1, []⟩ 49
    (some { typ := TokenType.number 1, lexeme := [49], line := 1 }, ⟨0, 1, 1, []⟩)
    (by decide) (by decide) (by decide)
    (by simp [scan_num, skip_digits_eq, byteAt, digitB, strSlice, isCharBoundary, contB,
      make_token, parseF64, digitsVal])

/-- C10: on every `utf8Chunked` input -- a superset of the valid UTF-8 strings
Rust's `&str` guarantees -- `scan` never panics: every slice it takes
(`src[start..curr]` in `make_token`, `src[start+1..curr-1]` in `scan_str`) is
in bounds with both endpoints on char boundaries, and the `curr - 1`
subtraction in `scan_str` cannot underflow (in the model an underflow or a bad
slice yields the `panic` outcome, and the scan never produces it). -/
theorem scan_never_panics (src : List Nat) (h : utf8Chunked src = true) :
    scan src ≠ .panic :=
  scan_ne_panic h

/-- Witness for C10 on the input `"hello"`. -/
theorem scan_never_panics_witness : scan (strBytes "\"hello\"") ≠ .panic :=
  scan_never_panics (strBytes "\"hello\"") (by decide)
